import Mathlib

/-!
Shallow embedding of the googology crate (src/lib.rs, src/common.rs,
src/conway_wechsler.rs, src/knuth_yllion.rs) and verification of the
specification claims about it.

Conventions of the embedding:
* An input string is a list of its characters (`List Char`); the produced
  names are Lean `String`s, built with the same appends, pushes and pops as
  the Rust code.
* Machine integers (`usize`, `u32`) and the arbitrary-precision `BigUint`
  are modelled as `Nat`; the narrowing casts `to_u32`/`to_usize` keep their
  range guards.
* A Rust function returning `Option`/`Result` returns `Option`/`Except`.
  The points where the source could panic (the two `unwrap`s inside
  `num_from_slice`) and the points where the source applies the try
  operator to a `None` of `latin_prefix`/`myriad_number` are modelled as
  `Except.error ParseError.InternalError`, so "the result is never
  `InternalError`" also expresses "the source never panics there".
* The two `while` loops that repeatedly divide a `BigUint` are modelled by
  structurally recursive functions with an explicit fuel argument; fuel
  exhaustion (which the sufficiency lemmas below prove unreachable at every
  call site) is also mapped to `InternalError`.
-/

set_option maxHeartbeats 4000000

namespace Googology

/-- Error type of the crate (ParseError in src/lib.rs). -/
inductive ParseError where
  | Empty
  | InputTooLarge
  | InternalError
  | InvalidDigit
deriving DecidableEq, Repr

/-- Scale parameter of the Conway-Wechsler functions (src/conway_wechsler.rs). -/
inductive Scale where
  | Short
  | LongBritish
  | LongPeletier
deriving DecidableEq, Repr, Fintype

instance {ε α : Type} [DecidableEq ε] [DecidableEq α] : DecidableEq (Except ε α) := by
  intro x y
  cases x <;> cases y
  case error.error a b =>
    exact if h : a = b then .isTrue (by rw [h]) else .isFalse (by simp [h])
  case ok.ok a b =>
    exact if h : a = b then .isTrue (by rw [h]) else .isFalse (by simp [h])
  all_goals exact .isFalse (by simp)

/-! Constant tables of src/common.rs. -/

def NAMES_UPTO_TWENTY : List String := [
  "", "one", "two", "three", "four", "five", "six", "seven", "eight",
  "nine", "ten", "eleven", "twelve", "thirteen", "fourteen", "fifteen",
  "sixteen", "seventeen", "eighteen", "nineteen"
]

def TENS_NAMES : List String := [
  "", "", "twenty", "thirty", "fourty", "fifty", "sixty", "seventy",
  "eighty", "ninety"
]

def LATIN_BASE_PREFIXES : List String := [
  "n", "m", "b", "tr", "quadr", "quint", "sext", "sept", "oct", "non"
]

def LATIN_UNIT_PREFIXES : List String := [
  "", "un", "duo", "tre", "quattuor", "quinqua", "se", "septe", "octo",
  "nove"
]

def LATIN_TENS_PREFIXES : List String := [
  "", "deci", "viginti", "triginta", "quadraginta", "quinquaginta",
  "sexaginta", "septuaginta", "octoginta", "nonaginta"
]

def LATIN_HUNDREDS_PREFIXES : List String := [
  "", "centi", "ducenti", "trecenti", "quadringenti", "quingenti",
  "sescenti", "septingenti", "octingenti", "nongenti"
]

/-- Rust char::is_digit(10): the character is one of the ASCII digits 0-9. -/
def isDigitChar (c : Char) : Bool := 48 ≤ c.toNat && c.toNat ≤ 57

/-- common.rs is_all_digits. -/
def is_all_digits (s : List Char) : Bool := s.all isDigitChar

/-- Numeric value of an ASCII digit character. -/
def digitVal (c : Char) : Nat := c.toNat - 48

/-- Decimal value of a digit string (Rust str::parse / BigUint::from_str on a
validated all-digit slice). -/
def parseDigits (s : List Char) : Nat := s.foldl (fun acc c => 10 * acc + digitVal c) 0

/-- common.rs num_from_slice.  `none` models a panic of one of the two
`unwrap`s of the source: the requested range not being inside the string,
or the slice not parsing as a `usize` (empty, a non-digit, or overflow). -/
def num_from_slice (digits : List Char) (index ndigits : Nat) : Option Nat :=
  if index + ndigits ≤ digits.length then
    let sl := (digits.drop index).take ndigits
    if 0 < ndigits ∧ sl.all isDigitChar = true ∧ parseDigits sl < 2 ^ 64 then
      some (parseDigits sl)
    else none
  else none

/-- Rust String::pop: drop the final character (identity on the empty string). -/
def strPop (s : String) : String := String.mk s.data.dropLast

/-- common.rs latin_prefix (the name is adjusted to this file's conventions). -/
def latinPrefix (num : Nat) : Option String :=
  if 1000 ≤ num then none
  else if num < 10 then some (LATIN_BASE_PREFIXES.getD num "")
  else
    let hs := num / 100
    let ts := num % 100 / 10
    let us := num % 10
    let p0 := LATIN_UNIT_PREFIXES.getD us ""
    let p1 :=
      if 0 < ts then
        -- special unit place endings, keyed on (units, tens)
        let extra : String :=
          if us = 3 ∧ ((2 ≤ ts ∧ ts ≤ 5) ∨ ts = 8) then "s"
          else if us = 6 ∧ (2 ≤ ts ∧ ts ≤ 5) then "s"
          else if us = 6 ∧ ts = 8 then "x"
          else if us = 7 ∧ (ts = 1 ∨ (3 ≤ ts ∧ ts ≤ 7)) then "n"
          else if us = 7 ∧ (ts = 2 ∨ ts = 8) then "m"
          else if us = 9 ∧ (ts = 1 ∨ (3 ≤ ts ∧ ts ≤ 7)) then "n"
          else if us = 9 ∧ (ts = 2 ∨ ts = 8) then "m"
          else ""
        p0 ++ extra ++ LATIN_TENS_PREFIXES.getD ts "" ++ LATIN_HUNDREDS_PREFIXES.getD hs ""
      else
        -- special unit place endings, keyed on (units, hundreds)
        let extra : String :=
          if us = 3 ∧ (hs = 1 ∨ (3 ≤ hs ∧ hs ≤ 5) ∨ hs = 8) then "s"
          else if us = 6 ∧ (hs = 1 ∨ hs = 8) then "x"
          else if us = 6 ∧ (3 ≤ hs ∧ hs ≤ 5) then "s"
          else if us = 7 ∧ (1 ≤ hs ∧ hs ≤ 7) then "n"
          else if us = 7 ∧ hs = 8 then "m"
          else if us = 9 ∧ (1 ≤ hs ∧ hs ≤ 7) then "n"
          else if us = 9 ∧ hs = 8 then "m"
          else ""
        p0 ++ extra ++ LATIN_HUNDREDS_PREFIXES.getD hs ""
    some (strPop p1)

/-- common.rs name_hundreds: name for a two-digit pair. -/
def name_hundreds (tens units : Nat) : String :=
  let output := TENS_NAMES.getD tens ""
  if output = "" then NAMES_UPTO_TWENTY.getD (10 * tens + units) ""
  else if 0 < units then output ++ " " ++ NAMES_UPTO_TWENTY.getD units ""
  else output

/-- common.rs myriad_number. -/
def myriad_number (num : Nat) : Option String :=
  if 10000 ≤ num then none
  else
    let ms := num / 1000
    let hs := num % 1000 / 100
    let ts := num % 100 / 10
    let us := num % 10
    let output := name_hundreds ms hs
    let app := name_hundreds ts us
    let output := if output ≠ "" then output ++ " hundred " else output
    let output := if app ≠ "" then output ++ app ++ " " else output
    some (strPop output)

/-- num_traits ToPrimitive::to_u32 on a nonnegative big integer. -/
def to_u32 (n : Nat) : Option Nat := if n < 2 ^ 32 then some n else none

/-- num_traits ToPrimitive::to_usize on a nonnegative big integer. -/
def to_usize (n : Nat) : Option Nat := if n < 2 ^ 64 then some n else none

namespace conway_wechsler

/-- conway_wechsler.rs zillion_prefix (the name is adjusted to this file's
conventions).  The try operator applied to the Option result of latin_prefix
is modelled as InternalError on None. -/
def zillionPrefix (num : Nat) : Except ParseError String :=
  match latinPrefix num with
  | none => .error .InternalError
  | some name => .ok (name ++ "illi")

/-- The while loop of conway_wechsler.rs zillion_number, collecting the
"-illi" morphemes least significant first.  The fuel argument makes the
repeated division by 1000 structurally recursive; every call below passes
fuel at least power, which the sufficiency lemmas prove is enough. -/
def zillionCollect : Nat → Nat → Except ParseError (List String)
  | _, 0 => .ok []
  | 0, _ + 1 => .error .InternalError
  | fuel + 1, power =>
    match zillionPrefix (power % 1000) with
    | .error e => .error e
    | .ok z =>
      match zillionCollect fuel (power / 1000) with
      | .error e => .error e
      | .ok rest => .ok (z :: rest)

/-- conway_wechsler.rs zillion_number. -/
def zillion_number (num : Nat) (scale : Scale) : Except ParseError String :=
  if num = 0 then .ok ""
  else if num = 1 then .ok "thousand"
  else
    let pas : String × String :=
      match scale, num % 2 with
      | .LongBritish, 1 => ("thousand ", "on")
      | .LongPeletier, 1 => ("", "ard")
      | _, _ => ("", "on")
    let power : Nat :=
      match scale with
      | .Short => num - 1
      | _ => (num + 2) / 2 - 1
    match zillionCollect power power with
    | .error e => .error e
    | .ok zillions =>
      .ok ((zillions.reverse.foldl (fun a z => a ++ z) pas.1) ++ pas.2)

/-- The chunks-of-three while loop of conway_wechsler.rs full_name, acting on
the digits that remain at loop entry (whose count is a multiple of three).
The chunk value is read through num_from_slice exactly as in the source; a
list whose length is not a multiple of three (unreachable) would make the
slice run out of bounds, hence the InternalError catch-all. -/
def cwLoop (scale : Scale) : List Char → String → Except ParseError String
  | [], output => .ok output
  | d1 :: d2 :: d3 :: rest, output =>
    match num_from_slice (d1 :: d2 :: d3 :: rest) 0 3 with
    | none => .error .InternalError
    | some num =>
      match myriad_number num with
      | none => .error .InternalError
      | some leading =>
        match zillion_number ((rest.length + 3) / 3 - 1) scale with
        | .error e => .error e
        | .ok zillion =>
          let output :=
            if leading ≠ "" then
              (if output ≠ "" then output ++ " " else output) ++ leading ++
                (if zillion ≠ "" then " " ++ zillion else "")
            else output
          cwLoop scale rest output
  | _, _ => .error .InternalError

/-- conway_wechsler.rs full_name. -/
def full_name (digits : List Char) (scale : Scale) : Except ParseError String :=
  if is_all_digits digits = false then .error .InvalidDigit
  else if digits = [] then .error .Empty
  else
    -- d.find(|c| c != '0') and processing from that index onward
    let t := digits.dropWhile (fun c => c == '0')
    match t with
    | [] => .ok "zero"
    | _ :: _ =>
      let remaining := t.length
      let first := remaining % 3
      let headRes : Except ParseError String :=
        if 0 < first then
          match num_from_slice t 0 first with
          | none => .error .InternalError
          | some num =>
            match myriad_number num with
            | none => .error .InternalError
            | some leading =>
              match zillion_number (remaining / 3) scale with
              | .error e => .error e
              | .ok zillion =>
                .ok (leading ++ (if zillion ≠ "" then " " ++ zillion else ""))
        else .ok ""
      match headRes with
      | .error e => .error e
      | .ok output => cwLoop scale (t.drop first) output

/-- The insertion while loop of conway_wechsler.rs power_of_ten.  Each pass
inserts the next "-illi" morpheme at the fixed insertion point, in front of
the previously inserted ones; mid accumulates what stands at that point, and
the suffix is appended after the loop.  Fuel as in zillionCollect. -/
def cwPotLoop : Nat → Nat → String → String → String → Except ParseError String
  | _, 0, head, mid, sfx => .ok (head ++ mid ++ sfx)
  | 0, _ + 1, _, _, _ => .error .InternalError
  | fuel + 1, power + 1, head, mid, sfx =>
    match to_usize ((power + 1) % 1000) with
    | none => .error .InternalError
    | some zn =>
      match zillionPrefix zn with
      | .error e => .error e
      | .ok z => cwPotLoop fuel ((power + 1) / 1000) head (z ++ mid) sfx

/-- conway_wechsler.rs power_of_ten. -/
def power_of_ten (digits : List Char) (scale : Scale) : Except ParseError String :=
  if is_all_digits digits = false then .error .InvalidDigit
  else if digits = [] then .error .Empty
  else
    -- BigUint::from_str cannot fail on a validated nonempty digit string;
    -- its error arm maps to InternalError in the source
    let power := parseDigits digits
    let s := ((to_u32 (power % 3)).map fun m =>
      match m with
      | 0 => "one"
      | 1 => "ten"
      | 2 => "one hundred"
      | _ => "").getD ""
    let output := s
    let power := power / 3
    if power = 0 then .ok output
    else if power = 1 then .ok (output ++ " thousand")
    else
      let power := power - 1
      let output := output ++ " "
      let pas : String × String :=
        match scale, decide (power % 2 = 0) with
        | .Short, _ => ("", "on")
        | _, false => ("", "on")
        | .LongBritish, true => ("thousand ", "on")
        | .LongPeletier, true => ("", "ard")
      let power := if scale ≠ .Short then (power + 3) / 2 - 1 else power
      let head := output ++ pas.1
      cwPotLoop power power head "" pas.2

end conway_wechsler

namespace knuth_yllion

/-- Structural helper for trailing_zeros, with fuel on the repeated halving. -/
def trailingZerosAux : Nat → Nat → Nat
  | 0, _ => 0
  | fuel + 1, n => if n % 2 = 0 ∧ n ≠ 0 then trailingZerosAux fuel (n / 2) + 1 else 0

/-- Rust usize::trailing_zeros; the call site only reaches it with an even
nonzero value, for which this fuel choice computes the exact count of times
2 divides the number. -/
def trailingZeros (n : Nat) : Nat := trailingZerosAux n n

/-- knuth_yllion.rs zyllion_number: name and magnitude rank of the qualifier
of four-digit group number num.  The try operator applied to latin_prefix's
Option is modelled as InternalError on None. -/
def zyllion_number (num : Nat) : Except ParseError (String × Nat) :=
  if num = 0 then .ok ("", 0)
  else if num % 2 = 1 then .ok ("myriad", 1)
  else
    let greatest_power_of_two := trailingZeros num
    match latinPrefix greatest_power_of_two with
    | none => .error .InternalError
    | some p => .ok (p ++ "yllion", greatest_power_of_two + 1)

/-- One iteration of the knuth_yllion.rs full_name loop body, after the
chunk value, its name and its zyllion qualifier have been computed: the
two mutation steps of (output, last_largest) of the source.  The second
step is the one where a group of all zeroes whose zyllion is larger than
the last written one still writes that zyllion. -/
def kyStep (output : String) (last_largest : Nat) (leading zyllion : String)
    (largest : Nat) : String × Nat :=
  let st : String × Nat :=
    if leading ≠ "" then
      ((if output ≠ "" then output ++ " " else output) ++ leading ++
         (if zyllion ≠ "" then " " ++ zyllion else ""),
       if zyllion ≠ "" then largest else last_largest)
    else (output, last_largest)
  if st.2 < largest then (st.1 ++ " " ++ zyllion, largest) else st

/-- The chunks-of-four while loop of knuth_yllion.rs full_name, carrying the
output string and the last_largest bookkeeping value. -/
def kyLoop : List Char → String → Nat → Except ParseError String
  | [], output, _ => .ok output
  | d1 :: d2 :: d3 :: d4 :: rest, output, last_largest =>
    match num_from_slice (d1 :: d2 :: d3 :: d4 :: rest) 0 4 with
    | none => .error .InternalError
    | some num =>
      match myriad_number num with
      | none => .error .InternalError
      | some leading =>
        match zyllion_number ((rest.length + 3) / 4) with
        | .error e => .error e
        | .ok (zyllion, largest) =>
          kyLoop rest (kyStep output last_largest leading zyllion largest).1
            (kyStep output last_largest leading zyllion largest).2
  | _, _, _ => .error .InternalError

/-- knuth_yllion.rs full_name.  Unlike conway_wechsler::full_name there is no
empty-input check: the validation only tests is_all_digits, and an empty
string then takes the all-zeroes path. -/
def full_name (digits : List Char) : Except ParseError String :=
  if is_all_digits digits = false then .error .InvalidDigit
  else
    let t := digits.dropWhile (fun c => c == '0')
    match t with
    | [] => .ok "zero"
    | _ :: _ =>
      let remaining := t.length
      let first := remaining % 4
      let headRes : Except ParseError (String × Nat) :=
        if 0 < first then
          match num_from_slice t 0 first with
          | none => .error .InternalError
          | some num =>
            match myriad_number num with
            | none => .error .InternalError
            | some leading =>
              match zyllion_number (remaining / 4) with
              | .error e => .error e
              | .ok (zyllion, largest) =>
                if zyllion ≠ "" then .ok (leading ++ " " ++ zyllion, largest)
                else .ok (leading, 0)
        else .ok ("", 0)
      match headRes with
      | .error e => .error e
      | .ok (output, last_largest) => kyLoop (t.drop first) output last_largest

/-- The bit-scanning while loop of knuth_yllion.rs power_of_ten: divide the
power by two, fail above the prefix ceiling, and append a latin-prefixed
"yllion" for every set bit.  Fuel as in the other loops. -/
def kyPotLoop : Nat → Nat → Nat → String → Except ParseError String
  | _, 0, _, output => .ok output
  | 0, _ + 1, _, _ => .error .InternalError
  | fuel + 1, power + 1, zyl_num, output =>
    let power2 := (power + 1) / 2
    if 999 < zyl_num then .error .InputTooLarge
    else
      let step : Except ParseError String :=
        if to_u32 (power2 % 2) = some 1 then
          match latinPrefix zyl_num with
          | none => .error .InternalError
          | some p => .ok (output ++ " " ++ p ++ "yllion")
        else .ok output
      match step with
      | .error e => .error e
      | .ok output2 => kyPotLoop fuel power2 (zyl_num + 1) output2

/-- knuth_yllion.rs power_of_ten.  BigUint::from_str fails exactly on the
empty string here (non-digits are already rejected), and the source maps
that failure to Empty. -/
def power_of_ten (digits : List Char) : Except ParseError String :=
  if is_all_digits digits = false then .error .InvalidDigit
  else if digits = [] then .error .Empty
  else
    let power := parseDigits digits
    let s := ((to_u32 (power % 2)).map fun m =>
      match m with
      | 0 => "one"
      | 1 => "ten"
      | _ => "").getD ""
    let output := s
    let power := power / 2
    let output := if to_u32 (power % 2) = some 1 then output ++ " hundred" else output
    let power := power / 2
    -- the source tests this remainder against Some(2), which a value
    -- reduced mod 2 can never satisfy, so " myriad" is never appended
    let output := if to_u32 (power % 2) = some 2 then output ++ " myriad" else output
    kyPotLoop (power + 1) power 1 output

end knuth_yllion

/-! Well-spacedness: the output-format invariant of the crate.  A string is
well spaced when it is nonempty, neither starts nor ends with a space, and
never has two consecutive spaces. -/

/-- Boolean scan for the absence of two consecutive spaces. -/
def noDS : List Char → Bool
  | a :: b :: l => !(a == ' ' && b == ' ') && noDS (b :: l)
  | _ => true

/-- Well-spacedness of a character list. -/
def WS (l : List Char) : Prop :=
  l ≠ [] ∧ l.head? ≠ some ' ' ∧ l.getLast? ≠ some ' ' ∧ noDS l = true

instance instWSDec (l : List Char) : Decidable (WS l) :=
  inferInstanceAs (Decidable (_ ∧ _ ∧ _ ∧ _))

theorem noDS_chain : ∀ l : List Char,
    noDS l = true ↔ List.Chain' (fun a b => ¬(a = ' ' ∧ b = ' ')) l
  | [] => by simp [noDS]
  | [a] => by simp [noDS]
  | a :: b :: l => by
    have ih := noDS_chain (b :: l)
    constructor
    · intro h
      rw [List.chain'_cons]
      have hsplit : (!(a == ' ' && b == ' ')) = true ∧ noDS (b :: l) = true := by
        simpa [noDS, Bool.and_eq_true] using h
      refine ⟨?_, ih.1 hsplit.2⟩
      intro hc
      rw [hc.1, hc.2] at hsplit
      simp at hsplit
    · intro h
      rw [List.chain'_cons] at h
      show (!(a == ' ' && b == ' ') && noDS (b :: l)) = true
      rw [Bool.and_eq_true]
      refine ⟨?_, ih.2 h.2⟩
      by_cases ha : a = ' '
      · by_cases hb : b = ' '
        · exact absurd ⟨ha, hb⟩ h.1
        · simp [ha, hb]
      · simp [ha]

theorem head?_append_left {a : List Char} (b : List Char) (h : a ≠ []) :
    (a ++ b).head? = a.head? := by
  cases a with
  | nil => exact absurd rfl h
  | cons x xs => rfl

theorem getLast?_append_right (a : List Char) {b : List Char} (h : b ≠ []) :
    (a ++ b).getLast? = b.getLast? := by
  rw [← List.head?_reverse, ← List.head?_reverse, List.reverse_append,
    head?_append_left _ (by simpa using h)]

/-- Concatenating two well-spaced strings yields a well-spaced string. -/
theorem ws_append {a b : List Char} (ha : WS a) (hb : WS b) : WS (a ++ b) := by
  obtain ⟨ha1, ha2, ha3, ha4⟩ := ha
  obtain ⟨hb1, hb2, hb3, hb4⟩ := hb
  refine ⟨by simp [ha1], ?_, ?_, ?_⟩
  · rw [head?_append_left b ha1]; exact ha2
  · rw [getLast?_append_right a hb1]; exact hb3
  · rw [noDS_chain, List.chain'_append]
    refine ⟨(noDS_chain a).1 ha4, (noDS_chain b).1 hb4, ?_⟩
    intro x hx y hy hxy
    exact ha3 (by rw [hx, hxy.1])

/-- Joining two well-spaced strings with a single space stays well spaced. -/
theorem ws_space_append {a b : List Char} (ha : WS a) (hb : WS b) :
    WS (a ++ ' ' :: b) := by
  obtain ⟨ha1, ha2, ha3, ha4⟩ := ha
  obtain ⟨hb1, hb2, hb3, hb4⟩ := hb
  refine ⟨by simp, ?_, ?_, ?_⟩
  · rw [head?_append_left _ ha1]; exact ha2
  · rw [getLast?_append_right a (by simp)]
    cases b with
    | nil => exact absurd rfl hb1
    | cons x xs => rw [List.getLast?_cons_cons]; exact hb3
  · rw [noDS_chain, List.chain'_append]
    refine ⟨(noDS_chain a).1 ha4, ?_, ?_⟩
    · cases b with
      | nil => exact absurd rfl hb1
      | cons x xs =>
        refine List.chain'_cons.2 ⟨?_, (noDS_chain (x :: xs)).1 hb4⟩
        intro hc
        exact hb2 (by rw [hc.2]; rfl)
    · intro x hx y hy hxy
      exact ha3 (by rw [hx, hxy.1])

/-- A nonempty string without any space is well spaced. -/
theorem ws_single {l : List Char} (h1 : l ≠ []) (h2 : ∀ c ∈ l, c ≠ ' ') : WS l := by
  refine ⟨h1, ?_, ?_, ?_⟩
  · cases l with
    | nil => exact absurd rfl h1
    | cons x xs =>
      intro hc
      exact h2 x (List.mem_cons_self x xs) (by simpa using hc)
  · intro hc
    rw [← List.head?_reverse] at hc
    cases hr : l.reverse with
    | nil => rw [hr] at hc; cases hc
    | cons x xs =>
      rw [hr] at hc
      have hx : x ∈ l := List.mem_reverse.1 (hr ▸ List.mem_cons_self x xs)
      exact h2 x hx (by simpa using hc)
  · rw [noDS_chain]
    induction l with
    | nil => exact List.chain'_nil
    | cons a t ih =>
      cases t with
      | nil => exact List.chain'_singleton a
      | cons b t =>
        refine List.chain'_cons.2 ⟨?_, ih (by simp) ?_⟩
        · intro hc; exact h2 a (List.mem_cons_self _ _) hc.1
        · intro c hc; exact h2 c (List.mem_cons_of_mem _ hc)

/-! Basic facts about the embedding's primitive operations. -/

theorem sdata_append (a b : String) : (a ++ b).data = a.data ++ b.data := rfl

theorem strPop_data (s : String) : (strPop s).data = s.data.dropLast := rfl

theorem string_eq_of_data {a b : String} (h : a.data = b.data) : a = b := by
  cases a; cases b
  exact congrArg String.mk (by simpa using h)

theorem isDigitChar_elim {c : Char} (h : isDigitChar c = true) :
    48 ≤ c.toNat ∧ c.toNat ≤ 57 := by
  simpa [isDigitChar, Bool.and_eq_true] using h

theorem digitVal_le {c : Char} (h : isDigitChar c = true) : digitVal c ≤ 9 := by
  have := isDigitChar_elim h
  unfold digitVal
  omega

theorem char_eq_zero_of_toNat {c : Char} (h : c.toNat = 48) : c = '0' := by
  have hc := Char.ofNat_toNat c
  rw [h] at hc
  rw [← hc]

theorem parseDigits_aux_lt (l : List Char) (h : ∀ c ∈ l, isDigitChar c = true) :
    ∀ acc, l.foldl (fun acc c => 10 * acc + digitVal c) acc < (acc + 1) * 10 ^ l.length := by
  induction l with
  | nil => intro acc; simp
  | cons c l ih =>
    intro acc
    have hc : digitVal c ≤ 9 := digitVal_le (h c (List.mem_cons_self c l))
    have hrec := ih (fun d hd => h d (List.mem_cons_of_mem c hd)) (10 * acc + digitVal c)
    have hstep : (10 * acc + digitVal c + 1) * 10 ^ l.length ≤ (acc + 1) * 10 ^ (l.length + 1) := by
      have h10 : 10 * acc + digitVal c + 1 ≤ (acc + 1) * 10 := by omega
      calc (10 * acc + digitVal c + 1) * 10 ^ l.length
          ≤ ((acc + 1) * 10) * 10 ^ l.length := Nat.mul_le_mul_right _ h10
        _ = (acc + 1) * 10 ^ (l.length + 1) := by ring
    calc List.foldl (fun acc c => 10 * acc + digitVal c) acc (c :: l)
        = List.foldl (fun acc c => 10 * acc + digitVal c) (10 * acc + digitVal c) l := rfl
      _ < (10 * acc + digitVal c + 1) * 10 ^ l.length := hrec
      _ ≤ (acc + 1) * 10 ^ (l.length + 1) := hstep
      _ = (acc + 1) * 10 ^ (c :: l).length := by rw [List.length_cons]

theorem parseDigits_lt (l : List Char) (h : ∀ c ∈ l, isDigitChar c = true) :
    parseDigits l < 10 ^ l.length := by
  simpa [parseDigits] using parseDigits_aux_lt l h 0

theorem parseDigits_aux_ge (l : List Char) :
    ∀ acc, acc ≤ l.foldl (fun acc c => 10 * acc + digitVal c) acc := by
  induction l with
  | nil => intro acc; exact Nat.le_refl acc
  | cons c l ih =>
    intro acc
    calc acc ≤ 10 * acc + digitVal c := by omega
      _ ≤ _ := ih (10 * acc + digitVal c)

theorem parseDigits_pos {c : Char} (l : List Char) (hc : isDigitChar c = true)
    (h0 : c ≠ '0') : 0 < parseDigits (c :: l) := by
  have hb := isDigitChar_elim hc
  have hv : 1 ≤ digitVal c := by
    rcases Nat.lt_or_ge c.toNat 49 with hlt | hge
    · exact absurd (char_eq_zero_of_toNat (by omega)) h0
    · unfold digitVal; omega
  have := parseDigits_aux_ge l (digitVal c)
  have hstep : parseDigits (c :: l) =
      l.foldl (fun acc c => 10 * acc + digitVal c) (digitVal c) := by
    simp [parseDigits]
  omega

@[simp] theorem data_empty : ("" : String).data = [] := rfl

@[simp] theorem data_single_space : (" " : String).data = [' '] := rfl

theorem string_data_eq_nil {s : String} (h : s.data = []) : s = "" :=
  string_eq_of_data (by rw [h])

theorem ws_ne_empty {s : String} (h : WS s.data) : s ≠ "" := fun hc => h.1 (by rw [hc])

theorem data_space_append (x y : String) : (x ++ " " ++ y).data = x.data ++ ' ' :: y.data := by
  rw [sdata_append, sdata_append, data_single_space, List.append_assoc]
  rfl

theorem ws_append_word {x y : String} (hx : WS x.data) (hy : WS y.data) :
    WS (x ++ " " ++ y).data := by
  rw [data_space_append]
  exact ws_space_append hx hy

theorem ws_parts {x y z : String} (hx : WS x.data) (hy : WS y.data) (hz : WS z.data) :
    WS ((x ++ " ") ++ y ++ (" " ++ z)).data := by
  have hd : ((x ++ " ") ++ y ++ (" " ++ z)).data =
      x.data ++ ' ' :: (y.data ++ ' ' :: z.data) := by
    simp [sdata_append, List.append_assoc]
  rw [hd]
  exact ws_space_append hx (ws_space_append hy hz)

theorem is_all_digits_sub {l t : List Char} (hsub : t ⊆ l) (h : is_all_digits l = true) :
    is_all_digits t = true := by
  simp only [is_all_digits, List.all_eq_true] at h ⊢
  exact fun c hc => h c (hsub hc)

/-! Exhaustively checked table facts, quantified digit by digit so that the
decision procedure recurses only ten cases deep at each level. -/

/-- Boolean check: a nonempty string without spaces. -/
def goodWord (s : String) : Bool := (s != "") && s.data.all (fun c => c != ' ')

theorem latinPrefix_good_digits :
    ∀ h < 10, ∀ t < 10, ∀ u < 10,
      ((latinPrefix (100 * h + 10 * t + u)).map goodWord).getD false = true := by decide

/-- Every latin prefix for an index below 1000 exists, is nonempty, and
contains no space. -/
theorem latinPrefix_good {n : Nat} (h : n < 1000) :
    ∃ p, latinPrefix n = some p ∧ p ≠ "" ∧ ∀ c ∈ p.data, c ≠ ' ' := by
  have hd := latinPrefix_good_digits (n / 100) (by omega) (n % 100 / 10) (by omega)
    (n % 10) (by omega)
  have hn : 100 * (n / 100) + 10 * (n % 100 / 10) + n % 10 = n := by omega
  rw [hn] at hd
  cases hp : latinPrefix n with
  | none => rw [hp] at hd; simp at hd
  | some p =>
    rw [hp] at hd
    simp [goodWord, List.all_eq_true] at hd
    refine ⟨p, rfl, hd.1, ?_⟩
    intro c hc
    have := hd.2 c hc
    simpa using this

theorem name_hundreds_check :
    ∀ t < 10, ∀ u < 10,
      (if t = 0 ∧ u = 0 then name_hundreds t u = ""
       else name_hundreds t u ≠ "" ∧ WS (name_hundreds t u).data) := by decide

/-- Characterisation of myriad_number below 10000: it always succeeds, names
zero by the empty string, and produces a well-spaced nonempty name otherwise. -/
theorem myriad_spec (num : Nat) (h : num < 10000) :
    ∃ s, myriad_number num = some s ∧ (num = 0 → s = "") ∧
      (num ≠ 0 → s ≠ "" ∧ WS s.data) := by
  have h1 := name_hundreds_check (num / 1000) (by omega) (num % 1000 / 100) (by omega)
  have h2 := name_hundreds_check (num % 100 / 10) (by omega) (num % 10) (by omega)
  set nh1 := name_hundreds (num / 1000) (num % 1000 / 100) with hnh1
  set nh2 := name_hundreds (num % 100 / 10) (num % 10) with hnh2
  have hm : myriad_number num = some (strPop (
      if nh2 ≠ "" then (if nh1 ≠ "" then nh1 ++ " hundred " else nh1) ++ nh2 ++ " "
      else (if nh1 ≠ "" then nh1 ++ " hundred " else nh1))) := by
    unfold myriad_number
    rw [if_neg (by omega)]
  by_cases e1 : nh1 = "" <;> by_cases e2 : nh2 = ""
  · -- both pairs are zero, so num = 0 and the name is empty
    have hz1 : num / 1000 = 0 ∧ num % 1000 / 100 = 0 := by
      by_contra hc
      rw [if_neg hc] at h1
      exact h1.1 e1
    have hz2 : num % 100 / 10 = 0 ∧ num % 10 = 0 := by
      by_contra hc
      rw [if_neg hc] at h2
      exact h2.1 e2
    have hnum : num = 0 := by omega
    rw [e1, e2] at hm
    refine ⟨"", ?_, fun _ => rfl, fun hn => absurd hnum hn⟩
    rw [hm]
    rfl
  · -- only the low pair is nonzero: the name is exactly that pair's name
    have hnz : ¬(num % 100 / 10 = 0 ∧ num % 10 = 0) := by
      intro hc
      rw [if_pos hc] at h2
      exact e2 h2
    rw [if_neg hnz] at h2
    rw [e1] at hm
    have hval : strPop (("" : String) ++ nh2 ++ " ") = nh2 := by
      apply string_eq_of_data
      rw [strPop_data, sdata_append, sdata_append]
      show (([] : List Char) ++ nh2.data ++ [' ']).dropLast = nh2.data
      rw [List.nil_append, List.dropLast_concat]
    rw [if_pos e2, if_neg (by simp), hval] at hm
    exact ⟨nh2, hm, fun h0 => absurd h0 (by omega), fun _ => h2⟩
  · -- only the high pair is nonzero: the name is that pair followed by hundred
    have hnz : ¬(num / 1000 = 0 ∧ num % 1000 / 100 = 0) := by
      intro hc
      rw [if_pos hc] at h1
      exact e1 h1
    rw [if_neg hnz] at h1
    rw [if_neg (by simpa using e2), if_pos e1] at hm
    have hval : (strPop (nh1 ++ " hundred ")).data = nh1.data ++ ' ' :: ("hundred" : String).data := by
      rw [strPop_data, sdata_append]
      have hsfx : (" hundred " : String).data =
          (' ' :: ("hundred" : String).data) ++ [' '] := rfl
      rw [hsfx, ← List.append_assoc, List.dropLast_concat]
    refine ⟨strPop (nh1 ++ " hundred "), hm, fun h0 => absurd h0 (by omega), fun _ => ?_⟩
    constructor
    · intro hc
      have := congrArg String.data hc
      rw [hval] at this
      simp at this
    · rw [hval]
      exact ws_space_append h1.2 (by decide)
  · -- both pairs nonzero: pair1 ++ " hundred " ++ pair2, final space dropped
    have hnz1 : ¬(num / 1000 = 0 ∧ num % 1000 / 100 = 0) := by
      intro hc
      rw [if_pos hc] at h1
      exact e1 h1
    have hnz2 : ¬(num % 100 / 10 = 0 ∧ num % 10 = 0) := by
      intro hc
      rw [if_pos hc] at h2
      exact e2 h2
    rw [if_neg hnz1] at h1
    rw [if_neg hnz2] at h2
    rw [if_pos e2, if_pos e1] at hm
    have hval : (strPop (nh1 ++ " hundred " ++ nh2 ++ " ")).data =
        nh1.data ++ ' ' :: (("hundred" : String).data ++ ' ' :: nh2.data) := by
      rw [strPop_data, sdata_append, sdata_append, sdata_append]
      have hsp : (" " : String).data = [' '] := rfl
      have hsfx : (" hundred " : String).data =
          ' ' :: (("hundred" : String).data ++ [' ']) := rfl
      rw [hsp, hsfx, List.dropLast_concat]
      simp [List.append_assoc]
    refine ⟨strPop (nh1 ++ " hundred " ++ nh2 ++ " "), hm, fun h0 => absurd h0 (by omega),
      fun _ => ?_⟩
    constructor
    · intro hc
      have := congrArg String.data hc
      rw [hval] at this
      simp at this
    · rw [hval]
      exact ws_space_append h1.2 (ws_space_append (by decide) h2.2)

/-! Conway-Wechsler zillion machinery. -/

theorem cw_zillionPrefix_spec (n : Nat) (h : n < 1000) :
    ∃ z, conway_wechsler.zillionPrefix n = .ok z ∧ z ≠ "" ∧ ∀ c ∈ z.data, c ≠ ' ' := by
  obtain ⟨p, hp, hne, hsp⟩ := latinPrefix_good h
  refine ⟨p ++ "illi", ?_, ?_, ?_⟩
  · unfold conway_wechsler.zillionPrefix
    rw [hp]
  · intro hc
    have hd := congrArg String.data hc
    rw [sdata_append] at hd
    simp at hd
  · intro c hc
    rw [sdata_append] at hc
    rcases List.mem_append.1 hc with hcp | hci
    · exact hsp c hcp
    · have hilli : ∀ x ∈ ("illi" : String).data, x ≠ ' ' := by decide
      exact hilli c hci

theorem cw_zillionCollect_spec : ∀ fuel power, power ≤ fuel →
    ∃ zs, conway_wechsler.zillionCollect fuel power = .ok zs ∧
      (∀ z ∈ zs, z ≠ "" ∧ ∀ c ∈ z.data, c ≠ ' ') ∧ (zs = [] ↔ power = 0) := by
  intro fuel
  induction fuel with
  | zero =>
    intro power hle
    have h0 : power = 0 := by omega
    subst h0
    exact ⟨[], rfl, by simp, by simp⟩
  | succ f ih =>
    intro power hle
    rcases Nat.eq_zero_or_pos power with h0 | hpos
    · subst h0
      exact ⟨[], rfl, by simp, by simp⟩
    · obtain ⟨k, rfl⟩ := Nat.exists_eq_succ_of_ne_zero (Nat.pos_iff_ne_zero.1 hpos)
      obtain ⟨z, hz, hzne, hzsp⟩ := cw_zillionPrefix_spec ((k + 1) % 1000) (by omega)
      obtain ⟨zs, hzs, hall, _⟩ := ih ((k + 1) / 1000) (by omega)
      refine ⟨z :: zs, ?_, ?_, by simp⟩
      · have hred : conway_wechsler.zillionCollect (f + 1) (k + 1) =
            (match conway_wechsler.zillionPrefix ((k + 1) % 1000) with
             | .error e => .error e
             | .ok z =>
               match conway_wechsler.zillionCollect f ((k + 1) / 1000) with
               | .error e => .error e
               | .ok rest => .ok (z :: rest)) := rfl
        rw [hred, hz, hzs]
      · intro w hw
        rcases List.mem_cons.1 hw with rfl | hw2
        · exact ⟨hzne, hzsp⟩
        · exact hall w hw2

theorem foldl_append_data : ∀ (l : List String) (a : String),
    (l.foldl (fun x z => x ++ z) a).data = a.data ++ (l.map String.data).flatten := by
  intro l
  induction l with
  | nil => intro a; simp
  | cons s l ih =>
    intro a
    rw [List.foldl_cons, ih (a ++ s), sdata_append]
    simp [List.append_assoc]

theorem join_words {zs : List String} (hall : ∀ z ∈ zs, z ≠ "" ∧ ∀ c ∈ z.data, c ≠ ' ')
    (hne : zs ≠ []) :
    (zs.map String.data).flatten ≠ [] ∧ ∀ c ∈ (zs.map String.data).flatten, c ≠ ' ' := by
  constructor
  · cases zs with
    | nil => exact absurd rfl hne
    | cons z zs =>
      simp only [List.map_cons, List.flatten_cons]
      intro hc
      exact (hall z (List.mem_cons_self z zs)).1
        (string_data_eq_nil (List.append_eq_nil.1 hc).1)
  · intro c hc
    rw [List.mem_flatten] at hc
    obtain ⟨l, hl, hcl⟩ := hc
    rw [List.mem_map] at hl
    obtain ⟨z, hz, rfl⟩ := hl
    exact (hall z hz).2 c hcl

/-- Assembly of a zillion name from its parts: leading fragment, reversed
collected morphemes, suffix. -/
theorem zillion_assembled_good {p1 p2 : String} {zs : List String}
    (hp1 : p1 = "" ∨ p1 = "thousand ")
    (hp2sp : ∀ c ∈ p2.data, c ≠ ' ')
    (hall : ∀ z ∈ zs, z ≠ "" ∧ ∀ c ∈ z.data, c ≠ ' ')
    (hne : zs ≠ []) :
    ((zs.reverse.foldl (fun a z => a ++ z) p1) ++ p2) ≠ "" ∧
    WS ((zs.reverse.foldl (fun a z => a ++ z) p1) ++ p2).data := by
  have hallr : ∀ z ∈ zs.reverse, z ≠ "" ∧ ∀ c ∈ z.data, c ≠ ' ' := by
    intro z hz
    exact hall z (List.mem_reverse.1 hz)
  have hner : zs.reverse ≠ [] := by simpa using hne
  obtain ⟨hjne, hjsp⟩ := join_words hallr hner
  have hdata : ((zs.reverse.foldl (fun a z => a ++ z) p1) ++ p2).data =
      p1.data ++ ((zs.reverse.map String.data).flatten ++ p2.data) := by
    rw [sdata_append, foldl_append_data, List.append_assoc]
  have hword : WS ((zs.reverse.map String.data).flatten ++ p2.data) := by
    apply ws_single
    · intro hcc
      exact hjne (List.append_eq_nil.1 hcc).1
    · intro c hc
      rcases List.mem_append.1 hc with hcj | hcp
      · exact hjsp c hcj
      · exact hp2sp c hcp
  constructor
  · intro hc
    have hd := congrArg String.data hc
    rw [hdata, data_empty] at hd
    exact hjne (List.append_eq_nil.1 (List.append_eq_nil.1 hd).2).1
  · rw [hdata]
    rcases hp1 with rfl | rfl
    · simpa using hword
    · have hth : ("thousand " : String).data = ("thousand" : String).data ++ [' '] := rfl
      rw [hth, List.append_assoc]
      exact ws_space_append (by decide) hword

/-- Characterisation of zillion_number: it always succeeds, gives the empty
qualifier exactly for group zero, and otherwise a well-spaced nonempty name. -/
theorem cw_zillion_spec (num : Nat) (scale : Scale) :
    ∃ z, conway_wechsler.zillion_number num scale = .ok z ∧ (num = 0 → z = "") ∧
      (num ≠ 0 → z ≠ "" ∧ WS z.data) := by
  by_cases h0 : num = 0
  · subst h0
    exact ⟨"", rfl, fun _ => rfl, fun hn => absurd rfl hn⟩
  by_cases h1 : num = 1
  · subst h1
    refine ⟨"thousand", rfl, by simp, fun _ => ⟨by simp, by decide⟩⟩
  have h2 : 2 ≤ num := by omega
  have hparity := Nat.mod_two_eq_zero_or_one num
  have hbody : ∃ p1 p2 power, (p1 = "" ∨ p1 = "thousand ") ∧
      (∀ c ∈ p2.data, c ≠ ' ') ∧ power ≠ 0 ∧
      conway_wechsler.zillion_number num scale =
        (match conway_wechsler.zillionCollect power power with
         | .error e => .error e
         | .ok zs => .ok ((zs.reverse.foldl (fun a z => a ++ z) p1) ++ p2)) := by
    rcases scale with _ | _ | _ <;> rcases hparity with hm2 | hm2
    · exact ⟨"", "on", num - 1, .inl rfl, by decide, by omega, by
        unfold conway_wechsler.zillion_number
        rw [if_neg h0, if_neg h1, hm2]⟩
    · exact ⟨"", "on", num - 1, .inl rfl, by decide, by omega, by
        unfold conway_wechsler.zillion_number
        rw [if_neg h0, if_neg h1, hm2]⟩
    · exact ⟨"", "on", (num + 2) / 2 - 1, .inl rfl, by decide, by omega, by
        unfold conway_wechsler.zillion_number
        rw [if_neg h0, if_neg h1, hm2]⟩
    · exact ⟨"thousand ", "on", (num + 2) / 2 - 1, .inr rfl, by decide, by omega, by
        unfold conway_wechsler.zillion_number
        rw [if_neg h0, if_neg h1, hm2]⟩
    · exact ⟨"", "on", (num + 2) / 2 - 1, .inl rfl, by decide, by omega, by
        unfold conway_wechsler.zillion_number
        rw [if_neg h0, if_neg h1, hm2]⟩
    · exact ⟨"", "ard", (num + 2) / 2 - 1, .inl rfl, by decide, by omega, by
        unfold conway_wechsler.zillion_number
        rw [if_neg h0, if_neg h1, hm2]⟩
  obtain ⟨p1, p2, power, hp1, hp2, hpow, heq⟩ := hbody
  obtain ⟨zs, hzs, hall, hnil⟩ := cw_zillionCollect_spec power power (Nat.le_refl power)
  have hzsne : zs ≠ [] := fun hc => hpow (hnil.1 hc)
  obtain ⟨hne, hws⟩ := zillion_assembled_good hp1 hp2 hall hzsne
  refine ⟨_, by rw [heq, hzs], fun hc => absurd hc h0, fun _ => ⟨hne, hws⟩⟩

/-! Knuth yllion machinery. -/

theorem trailingZerosAux_pow_le : ∀ fuel n, n ≠ 0 → n ≤ fuel →
    2 ^ knuth_yllion.trailingZerosAux fuel n ≤ n := by
  intro fuel
  induction fuel with
  | zero => intro n h0 hle; omega
  | succ f ih =>
    intro n h0 hle
    show 2 ^ (if n % 2 = 0 ∧ n ≠ 0 then knuth_yllion.trailingZerosAux f (n / 2) + 1 else 0) ≤ n
    by_cases h : n % 2 = 0 ∧ n ≠ 0
    · rw [if_pos h]
      have h4 := ih (n / 2) (by omega) (by omega)
      rw [pow_succ]
      omega
    · rw [if_neg h]
      simpa using Nat.one_le_iff_ne_zero.2 h0

theorem trailingZeros_lt {n : Nat} (h0 : n ≠ 0) (h : n < 2 ^ 64) :
    knuth_yllion.trailingZeros n < 64 := by
  have hle : 2 ^ knuth_yllion.trailingZeros n ≤ n :=
    trailingZerosAux_pow_le n n h0 (Nat.le_refl n)
  by_contra hc
  push_neg at hc
  have hpow : (2 : Nat) ^ 64 ≤ 2 ^ knuth_yllion.trailingZeros n :=
    Nat.pow_le_pow_right (by omega) hc
  omega

/-- Characterisation of zyllion_number for group counts below the usize
range: it succeeds, the qualifier is empty with rank zero exactly for group
zero, and is otherwise a nonempty well-spaced name of positive rank. -/
theorem ky_zyllion_spec (num : Nat) (h : num < 2 ^ 64) :
    ∃ z l, knuth_yllion.zyllion_number num = .ok (z, l) ∧
      (num = 0 → z = "" ∧ l = 0) ∧
      (num ≠ 0 → z ≠ "" ∧ WS z.data ∧ 1 ≤ l) := by
  by_cases h0 : num = 0
  · subst h0
    exact ⟨"", 0, rfl, fun _ => ⟨rfl, rfl⟩, fun hn => absurd rfl hn⟩
  by_cases h1 : num % 2 = 1
  · refine ⟨"myriad", 1, ?_, fun hc => absurd hc h0, fun _ => ⟨by simp, by decide, Nat.le_refl 1⟩⟩
    unfold knuth_yllion.zyllion_number
    rw [if_neg h0, if_pos h1]
  · have htz : knuth_yllion.trailingZeros num < 64 := trailingZeros_lt h0 h
    obtain ⟨p, hp, hpne, hpsp⟩ := latinPrefix_good (n := knuth_yllion.trailingZeros num) (by omega)
    refine ⟨p ++ "yllion", knuth_yllion.trailingZeros num + 1, ?_, fun hc => absurd hc h0,
      fun _ => ⟨?_, ?_, by omega⟩⟩
    · have hred : knuth_yllion.zyllion_number num =
          (match latinPrefix (knuth_yllion.trailingZeros num) with
           | none => Except.error ParseError.InternalError
           | some p => Except.ok (p ++ "yllion", knuth_yllion.trailingZeros num + 1)) := by
        unfold knuth_yllion.zyllion_number
        rw [if_neg h0, if_neg h1]
      rw [hred, hp]
    · intro hc
      have hd := congrArg String.data hc
      rw [sdata_append] at hd
      simp at hd
    · apply ws_single
      · simp
      · intro c hc
        rw [sdata_append] at hc
        rcases List.mem_append.1 hc with hcp | hci
        · exact hpsp c hcp
        · have hyl : ∀ x ∈ ("yllion" : String).data, x ≠ ' ' := by decide
          exact hyl c hci

/-! The power-of-ten insertion loops always terminate within their fuel and
produce well-formed output. -/

theorem cwPotLoop_spec : ∀ fuel power head mid sfx, power ≤ fuel →
    (∀ c ∈ mid.data, c ≠ ' ') →
    ∃ w, conway_wechsler.cwPotLoop fuel power head mid sfx = .ok (head ++ w ++ sfx) ∧
      (∀ c ∈ w.data, c ≠ ' ') ∧ (power ≠ 0 ∨ mid ≠ "" → w ≠ "") := by
  intro fuel
  induction fuel with
  | zero =>
    intro power head mid sfx hle hmid
    have h0 : power = 0 := by omega
    subst h0
    exact ⟨mid, rfl, hmid, fun hc => hc.resolve_left (by simp)⟩
  | succ f ih =>
    intro power head mid sfx hle hmid
    rcases Nat.eq_zero_or_pos power with h0 | hpos
    · subst h0
      exact ⟨mid, rfl, hmid, fun hc => hc.resolve_left (by simp)⟩
    · obtain ⟨k, rfl⟩ := Nat.exists_eq_succ_of_ne_zero (Nat.pos_iff_ne_zero.1 hpos)
      have hzu : to_usize ((k + 1) % 1000) = some ((k + 1) % 1000) := by
        unfold to_usize
        rw [if_pos (by omega)]
      obtain ⟨z, hz, hzne, hzsp⟩ := cw_zillionPrefix_spec ((k + 1) % 1000) (by omega)
      obtain ⟨w, hw, hwsp, hwne⟩ := ih ((k + 1) / 1000) head (z ++ mid) sfx (by omega)
        (by
          intro c hc
          rw [sdata_append] at hc
          rcases List.mem_append.1 hc with h | h
          · exact hzsp c h
          · exact hmid c h)
      refine ⟨w, ?_, hwsp, ?_⟩
      · have hred : conway_wechsler.cwPotLoop (f + 1) (k + 1) head mid sfx =
            (match to_usize ((k + 1) % 1000) with
             | none => Except.error ParseError.InternalError
             | some zn =>
               match conway_wechsler.zillionPrefix zn with
               | .error e => .error e
               | .ok z => conway_wechsler.cwPotLoop f ((k + 1) / 1000) head (z ++ mid) sfx) := rfl
        rw [hred]
        simp only [hzu, hz, hw]
      · intro _
        apply hwne
        right
        intro hc
        have hd := congrArg String.data hc
        rw [sdata_append, data_empty] at hd
        exact hzne (string_data_eq_nil (List.append_eq_nil.1 hd).1)

theorem kyPotLoop_spec : ∀ fuel power zyl output, power ≤ fuel → WS output.data →
    (∃ s, knuth_yllion.kyPotLoop fuel power zyl output = .ok s ∧ WS s.data) ∨
      knuth_yllion.kyPotLoop fuel power zyl output = .error .InputTooLarge := by
  intro fuel
  induction fuel with
  | zero =>
    intro power zyl output hle hws
    have h0 : power = 0 := by omega
    subst h0
    exact .inl ⟨output, rfl, hws⟩
  | succ f ih =>
    intro power zyl output hle hws
    rcases Nat.eq_zero_or_pos power with h0 | hpos
    · subst h0
      exact .inl ⟨output, rfl, hws⟩
    obtain ⟨k, rfl⟩ := Nat.exists_eq_succ_of_ne_zero (Nat.pos_iff_ne_zero.1 hpos)
    have hred : knuth_yllion.kyPotLoop (f + 1) (k + 1) zyl output =
        (if 999 < zyl then Except.error ParseError.InputTooLarge
         else
           match
             (if to_u32 ((k + 1) / 2 % 2) = some 1 then
               match latinPrefix zyl with
               | none => Except.error ParseError.InternalError
               | some p => Except.ok (output ++ " " ++ p ++ "yllion")
             else Except.ok output : Except ParseError String) with
           | .error e => .error e
           | .ok output2 => knuth_yllion.kyPotLoop f ((k + 1) / 2) (zyl + 1) output2) := rfl
    by_cases hz : 999 < zyl
    · right
      rw [hred, if_pos hz]
    · rw [hred, if_neg hz]
      by_cases hbit : to_u32 ((k + 1) / 2 % 2) = some 1
      · obtain ⟨p, hp, hpne, hpsp⟩ := latinPrefix_good (n := zyl) (by omega)
        have hws2 : WS (output ++ " " ++ p ++ "yllion").data := by
          have hd : (output ++ " " ++ p ++ "yllion").data =
              output.data ++ ' ' :: (p.data ++ ("yllion" : String).data) := by
            simp [sdata_append, List.append_assoc]
          rw [hd]
          refine ws_space_append hws (ws_single ?_ ?_)
          · intro hc
            have := List.append_eq_nil.1 hc
            simp at this
          · intro c hc
            rcases List.mem_append.1 hc with h | h
            · exact hpsp c h
            · have hyl : ∀ x ∈ ("yllion" : String).data, x ≠ ' ' := by decide
              exact hyl c h
        rw [if_pos hbit]
        simp only [hp]
        exact ih ((k + 1) / 2) (zyl + 1) _ (by omega) hws2
      · rw [if_neg hbit]
        exact ih ((k + 1) / 2) (zyl + 1) output (by omega) hws

/-! Reading one chunk through num_from_slice. -/

theorem num_from_slice_chunk (t : List Char) (k : Nat) (hk : 0 < k) (hk4 : k ≤ 4)
    (hlen : k ≤ t.length) (hdig : ∀ c ∈ t, isDigitChar c = true) :
    num_from_slice t 0 k = some (parseDigits (t.take k)) ∧
      parseDigits (t.take k) < 10000 := by
  have halldig : ∀ c ∈ t.take k, isDigitChar c = true :=
    fun c hc => hdig c (List.take_subset k t hc)
  have hlt : parseDigits (t.take k) < 10000 := by
    have h1 := parseDigits_lt (t.take k) halldig
    have h2 : (10 : Nat) ^ (t.take k).length ≤ 10 ^ 4 := by
      apply Nat.pow_le_pow_right (by omega)
      simp [List.length_take]
      omega
    have h3 : (10 : Nat) ^ 4 = 10000 := by norm_num
    omega
  refine ⟨?_, hlt⟩
  unfold num_from_slice
  rw [if_pos (by omega)]
  rw [if_pos ⟨hk, List.all_eq_true.2 (by
      intro c hc
      exact halldig c (by simpa using hc)), by
    have h3 : (10000 : Nat) < 2 ^ 64 := by norm_num
    simp only [List.drop_zero]
    omega⟩]
  simp

/-! The chunks-of-three loop of conway_wechsler::full_name: on validated
digits whose count is a multiple of three it always returns Ok, and the
returned string is well spaced unless nothing was ever written. -/

theorem cwLoop_spec (scale : Scale) : ∀ (t : List Char) (output : String),
    is_all_digits t = true → t.length % 3 = 0 →
    (WS output.data ∨ (output = "" ∧ ∀ c, t.head? = some c → ¬c = '0')) →
    ∃ s, conway_wechsler.cwLoop scale t output = .ok s ∧
      (WS s.data ∨ (s = output ∧ t = []))
  | [], output, _, _, _ => ⟨output, rfl, .inr ⟨rfl, rfl⟩⟩
  | [_], _, _, hmod, _ => by simp at hmod
  | [_, _], _, _, hmod, _ => by simp at hmod
  | d1 :: d2 :: d3 :: rest, output, hdig, hmod, hws => by
    have hdigs : ∀ c ∈ d1 :: d2 :: d3 :: rest, isDigitChar c = true := by
      simpa [is_all_digits, List.all_eq_true] using hdig
    obtain ⟨hslice, hlt⟩ := num_from_slice_chunk (d1 :: d2 :: d3 :: rest) 3 (by omega)
      (by omega) (by simp) hdigs
    have htake : (d1 :: d2 :: d3 :: rest).take 3 = [d1, d2, d3] := rfl
    rw [htake] at hslice hlt
    obtain ⟨leading, hlead, hlead0, hleadn⟩ := myriad_spec (parseDigits [d1, d2, d3]) hlt
    obtain ⟨zil, hzil, hzil0, hziln⟩ := cw_zillion_spec ((rest.length + 3) / 3 - 1) scale
    have hred : conway_wechsler.cwLoop scale (d1 :: d2 :: d3 :: rest) output =
        (match num_from_slice (d1 :: d2 :: d3 :: rest) 0 3 with
         | none => Except.error ParseError.InternalError
         | some num =>
           match myriad_number num with
           | none => Except.error ParseError.InternalError
           | some leading =>
             match conway_wechsler.zillion_number ((rest.length + 3) / 3 - 1) scale with
             | .error e => .error e
             | .ok zillion =>
               conway_wechsler.cwLoop scale rest
                 (if leading ≠ "" then
                    (if output ≠ "" then output ++ " " else output) ++ leading ++
                      (if zillion ≠ "" then " " ++ zillion else "")
                  else output)) := rfl
    have hstep : conway_wechsler.cwLoop scale (d1 :: d2 :: d3 :: rest) output =
        conway_wechsler.cwLoop scale rest
          (if leading ≠ "" then
             (if output ≠ "" then output ++ " " else output) ++ leading ++
               (if zil ≠ "" then " " ++ zil else "")
           else output) := by
      rw [hred]
      simp only [hslice, hlead, hzil]
    rw [hstep]
    have hdigrest : is_all_digits rest = true :=
      is_all_digits_sub (by intro c hc; simp [hc]) hdig
    have hmodrest : rest.length % 3 = 0 := by
      have hlen : (d1 :: d2 :: d3 :: rest).length = rest.length + 3 := by simp
      omega
    rcases hws with hwsL | ⟨rfl, hhead⟩
    · by_cases hl : leading = ""
      · rw [if_neg (by simp [hl])]
        obtain ⟨s, hs, hcon⟩ := cwLoop_spec scale rest output hdigrest hmodrest (.inl hwsL)
        refine ⟨s, hs, .inl ?_⟩
        rcases hcon with h | ⟨rfl, _⟩
        · exact h
        · exact hwsL
      · obtain ⟨hlne, hlws⟩ := hleadn (fun hc => hl (hlead0 hc))
        rw [if_pos hl, if_pos (ws_ne_empty hwsL)]
        by_cases hz : zil = ""
        · rw [if_neg (by simp [hz])]
          have hwsNew : WS ((output ++ " " ++ leading ++ "").data) := by
            have hd : (output ++ " " ++ leading ++ "").data =
                output.data ++ ' ' :: leading.data := by
              rw [sdata_append, data_empty, List.append_nil, data_space_append]
            rw [hd]
            exact ws_space_append hwsL hlws
          obtain ⟨s, hs, hcon⟩ := cwLoop_spec scale rest _ hdigrest hmodrest (.inl hwsNew)
          refine ⟨s, hs, .inl ?_⟩
          rcases hcon with h | ⟨rfl, _⟩
          · exact h
          · exact hwsNew
        · rw [if_pos hz]
          obtain ⟨_, hzws⟩ := hziln (fun hc => hz (hzil0 hc))
          have hwsNew : WS (((output ++ " ") ++ leading ++ (" " ++ zil)).data) :=
            ws_parts hwsL hlws hzws
          obtain ⟨s, hs, hcon⟩ := cwLoop_spec scale rest _ hdigrest hmodrest (.inl hwsNew)
          refine ⟨s, hs, .inl ?_⟩
          rcases hcon with h | ⟨rfl, _⟩
          · exact h
          · exact hwsNew
    · have hd1 : ¬d1 = '0' := hhead d1 rfl
      have hnum0 : parseDigits [d1, d2, d3] ≠ 0 := by
        have hpos := parseDigits_pos (l := [d2, d3]) (c := d1)
          (hdigs d1 (List.mem_cons_self _ _)) hd1
        omega
      obtain ⟨hlne, hlws⟩ := hleadn hnum0
      rw [if_pos hlne, if_neg (by simp)]
      by_cases hz : zil = ""
      · rw [if_neg (by simp [hz])]
        have hwsNew : WS ((("" : String) ++ leading ++ "").data) := by
          have hd : (("" : String) ++ leading ++ "").data = leading.data := by
            simp [sdata_append]
          rw [hd]
          exact hlws
        obtain ⟨s, hs, hcon⟩ := cwLoop_spec scale rest _ hdigrest hmodrest (.inl hwsNew)
        refine ⟨s, hs, .inl ?_⟩
        rcases hcon with h | ⟨rfl, _⟩
        · exact h
        · exact hwsNew
      · rw [if_pos hz]
        obtain ⟨_, hzws⟩ := hziln (fun hc => hz (hzil0 hc))
        have hwsNew : WS ((("" : String) ++ leading ++ (" " ++ zil)).data) := by
          have hd : (("" : String) ++ leading ++ (" " ++ zil)).data =
              leading.data ++ ' ' :: zil.data := by
            simp [sdata_append, List.append_assoc]
          rw [hd]
          exact ws_space_append hlws hzws
        obtain ⟨s, hs, hcon⟩ := cwLoop_spec scale rest _ hdigrest hmodrest (.inl hwsNew)
        refine ⟨s, hs, .inl ?_⟩
        rcases hcon with h | ⟨rfl, _⟩
        · exact h
        · exact hwsNew

/-! Step equations for the knuth_yllion full_name loop body. -/

theorem kyStep_lead_empty (output : String) (last : Nat) (z : String) (lg : Nat) :
    knuth_yllion.kyStep output last "" z lg =
      if last < lg then (output ++ " " ++ z, lg) else (output, last) := by
  simp [knuth_yllion.kyStep]

theorem kyStep_lead (output : String) (last : Nat) {leading z : String} (lg : Nat)
    (hl : leading ≠ "") (hz : z ≠ "") :
    knuth_yllion.kyStep output last leading z lg =
      ((if output ≠ "" then output ++ " " else output) ++ leading ++ (" " ++ z), lg) := by
  simp [knuth_yllion.kyStep, hl, hz]

theorem kyStep_lead_zempty (output : String) (last : Nat) {leading : String} {lg : Nat}
    (hl : leading ≠ "") (hlg : lg = 0) :
    knuth_yllion.kyStep output last leading "" lg =
      ((if output ≠ "" then output ++ " " else output) ++ leading ++ "", last) := by
  subst hlg
  simp [knuth_yllion.kyStep, hl]

/-! The chunks-of-four loop of knuth_yllion::full_name: on validated digits
whose count is a multiple of four (and below the usize range) it always
returns Ok, and the result is well spaced unless nothing was ever written. -/

theorem kyLoop_spec : ∀ (t : List Char) (output : String) (last : Nat),
    is_all_digits t = true → t.length % 4 = 0 → t.length < 2 ^ 64 →
    (WS output.data ∨ (output = "" ∧ ∀ c, t.head? = some c → ¬c = '0')) →
    ∃ s, knuth_yllion.kyLoop t output last = .ok s ∧
      (WS s.data ∨ (s = output ∧ t = []))
  | [], output, _, _, _, _, _ => ⟨output, rfl, .inr ⟨rfl, rfl⟩⟩
  | [_], _, _, _, hmod, _, _ => by simp at hmod
  | [_, _], _, _, _, hmod, _, _ => by simp at hmod
  | [_, _, _], _, _, _, hmod, _, _ => by simp at hmod
  | d1 :: d2 :: d3 :: d4 :: rest, output, last, hdig, hmod, hbound, hws => by
    have hdigs : ∀ c ∈ d1 :: d2 :: d3 :: d4 :: rest, isDigitChar c = true := by
      simpa [is_all_digits, List.all_eq_true] using hdig
    obtain ⟨hslice, hlt⟩ := num_from_slice_chunk (d1 :: d2 :: d3 :: d4 :: rest) 4 (by omega)
      (by omega) (by simp) hdigs
    have htake : (d1 :: d2 :: d3 :: d4 :: rest).take 4 = [d1, d2, d3, d4] := rfl
    rw [htake] at hslice hlt
    obtain ⟨leading, hlead, hlead0, hleadn⟩ := myriad_spec (parseDigits [d1, d2, d3, d4]) hlt
    have hlen : (d1 :: d2 :: d3 :: d4 :: rest).length = rest.length + 4 := by simp
    obtain ⟨zil, lg, hzyl, hzyl0, hzyln⟩ := ky_zyllion_spec ((rest.length + 3) / 4) (by omega)
    have hstep : knuth_yllion.kyLoop (d1 :: d2 :: d3 :: d4 :: rest) output last =
        knuth_yllion.kyLoop rest (knuth_yllion.kyStep output last leading zil lg).1
          (knuth_yllion.kyStep output last leading zil lg).2 := by
      have hred : knuth_yllion.kyLoop (d1 :: d2 :: d3 :: d4 :: rest) output last =
          (match num_from_slice (d1 :: d2 :: d3 :: d4 :: rest) 0 4 with
           | none => Except.error ParseError.InternalError
           | some num =>
             match myriad_number num with
             | none => Except.error ParseError.InternalError
             | some leading =>
               match knuth_yllion.zyllion_number ((rest.length + 3) / 4) with
               | .error e => .error e
               | .ok (zyllion, largest) =>
                 knuth_yllion.kyLoop rest
                   (knuth_yllion.kyStep output last leading zyllion largest).1
                   (knuth_yllion.kyStep output last leading zyllion largest).2) := rfl
      rw [hred]
      simp only [hslice, hlead, hzyl]
    rw [hstep]
    have hdigrest : is_all_digits rest = true :=
      is_all_digits_sub (by intro c hc; simp [hc]) hdig
    have hmodrest : rest.length % 4 = 0 := by omega
    have hboundrest : rest.length < 2 ^ 64 := by omega
    rcases hws with hwsL | ⟨rfl, hhead⟩
    · by_cases hl : leading = ""
      · subst hl
        rw [kyStep_lead_empty]
        by_cases hcmp : last < lg
        · rw [if_pos hcmp]
          have hidx : (rest.length + 3) / 4 ≠ 0 := by
            intro hc
            have := (hzyl0 hc).2
            omega
          obtain ⟨hzne, hzws, _⟩ := hzyln hidx
          have hwsNew : WS ((output ++ " " ++ zil).data) := ws_append_word hwsL hzws
          obtain ⟨s, hs, hcon⟩ := kyLoop_spec rest _ lg hdigrest hmodrest hboundrest
            (.inl hwsNew)
          refine ⟨s, hs, .inl ?_⟩
          rcases hcon with h | ⟨rfl, _⟩
          · exact h
          · exact hwsNew
        · rw [if_neg hcmp]
          obtain ⟨s, hs, hcon⟩ := kyLoop_spec rest output last hdigrest hmodrest hboundrest
            (.inl hwsL)
          refine ⟨s, hs, .inl ?_⟩
          rcases hcon with h | ⟨rfl, _⟩
          · exact h
          · exact hwsL
      · obtain ⟨hlne, hlws⟩ := hleadn (fun hc => hl (hlead0 hc))
        by_cases hz : zil = ""
        · have hlg : lg = 0 := by
            by_contra hc
            have hidx : (rest.length + 3) / 4 ≠ 0 := by
              intro hc2
              exact hc (hzyl0 hc2).2
            exact (hzyln hidx).1 hz
          subst hz
          rw [kyStep_lead_zempty output last hl hlg]
          rw [if_pos (ws_ne_empty hwsL)]
          have hwsNew : WS (((output ++ " ") ++ leading ++ "").data) := by
            have hd : (((output ++ " ") ++ leading ++ "")).data =
                output.data ++ ' ' :: leading.data := by
              simp [sdata_append]
            rw [hd]
            exact ws_space_append hwsL hlws
          obtain ⟨s, hs, hcon⟩ := kyLoop_spec rest _ last hdigrest hmodrest hboundrest
            (.inl hwsNew)
          refine ⟨s, hs, .inl ?_⟩
          rcases hcon with h | ⟨rfl, _⟩
          · exact h
          · exact hwsNew
        · rw [kyStep_lead output last lg hl hz]
          rw [if_pos (ws_ne_empty hwsL)]
          have hidx : (rest.length + 3) / 4 ≠ 0 := by
            intro hc
            exact hz ((hzyl0 hc).1)
          obtain ⟨_, hzws, _⟩ := hzyln hidx
          have hwsNew : WS (((output ++ " ") ++ leading ++ (" " ++ zil)).data) :=
            ws_parts hwsL hlws hzws
          obtain ⟨s, hs, hcon⟩ := kyLoop_spec rest _ lg hdigrest hmodrest hboundrest
            (.inl hwsNew)
          refine ⟨s, hs, .inl ?_⟩
          rcases hcon with h | ⟨rfl, _⟩
          · exact h
          · exact hwsNew
    · have hd1 : ¬d1 = '0' := hhead d1 rfl
      have hnum0 : parseDigits [d1, d2, d3, d4] ≠ 0 := by
        have hpos := parseDigits_pos (l := [d2, d3, d4]) (c := d1)
          (hdigs d1 (List.mem_cons_self _ _)) hd1
        omega
      obtain ⟨hlne, hlws⟩ := hleadn hnum0
      by_cases hz : zil = ""
      · have hlg : lg = 0 := by
          by_contra hc
          have hidx : (rest.length + 3) / 4 ≠ 0 := by
            intro hc2
            exact hc (hzyl0 hc2).2
          exact (hzyln hidx).1 hz
        subst hz
        rw [kyStep_lead_zempty "" last hlne hlg, if_neg (by simp)]
        have hwsNew : WS ((("" : String) ++ leading ++ "").data) := by
          have hd : ((("" : String) ++ leading ++ "")).data = leading.data := by
            simp [sdata_append]
          rw [hd]
          exact hlws
        obtain ⟨s, hs, hcon⟩ := kyLoop_spec rest _ last hdigrest hmodrest hboundrest
          (.inl hwsNew)
        refine ⟨s, hs, .inl ?_⟩
        rcases hcon with h | ⟨rfl, _⟩
        · exact h
        · exact hwsNew
      · rw [kyStep_lead "" last lg hlne hz, if_neg (by simp)]
        have hidx : (rest.length + 3) / 4 ≠ 0 := by
          intro hc
          exact hz ((hzyl0 hc).1)
        obtain ⟨_, hzws, _⟩ := hzyln hidx
        have hwsNew : WS ((("" : String) ++ leading ++ (" " ++ zil)).data) := by
          have hd : ((("" : String) ++ leading ++ (" " ++ zil))).data =
              leading.data ++ ' ' :: zil.data := by
            simp [sdata_append, List.append_assoc]
          rw [hd]
          exact ws_space_append hlws hzws
        obtain ⟨s, hs, hcon⟩ := kyLoop_spec rest _ lg hdigrest hmodrest hboundrest
          (.inl hwsNew)
        refine ⟨s, hs, .inl ?_⟩
        rcases hcon with h | ⟨rfl, _⟩
        · exact h
        · exact hwsNew

/-! Top-level case analyses for the four public operations. -/

theorem dropWhile_head_false {α : Type} (p : α → Bool) (l : List α) :
    ∀ c, (l.dropWhile p).head? = some c → p c = false := by
  induction l with
  | nil => intro c hc; simp [List.dropWhile] at hc
  | cons a l ih =>
    intro c hc
    by_cases h : p a
    · rw [List.dropWhile_cons_of_pos h] at hc
      exact ih c hc
    · rw [List.dropWhile_cons_of_neg h] at hc
      simp at hc
      rw [← hc]
      simpa using h

theorem all_digits_of_not_false {l : List Char} (h : ¬is_all_digits l = false) :
    is_all_digits l = true := by
  cases hv : is_all_digits l
  · exact absurd hv h
  · rfl

theorem dropWhile_digits {digits : List Char} (h : is_all_digits digits = true) :
    is_all_digits (digits.dropWhile (fun c => c == '0')) = true :=
  is_all_digits_sub (List.dropWhile_sublist _).subset h

/-- Full case analysis of conway_wechsler::full_name: invalid digits, empty
input, an all-zero input, or a well-spaced name. -/
theorem cw_full_name_cases (digits : List Char) (scale : Scale) :
    conway_wechsler.full_name digits scale = .error .InvalidDigit ∨
    conway_wechsler.full_name digits scale = .error .Empty ∨
    conway_wechsler.full_name digits scale = .ok "zero" ∨
    ∃ s, conway_wechsler.full_name digits scale = .ok s ∧ WS s.data := by
  by_cases hv : is_all_digits digits = false
  · left
    unfold conway_wechsler.full_name
    rw [if_pos hv]
  have hv2 := all_digits_of_not_false hv
  by_cases he : digits = []
  · right; left
    unfold conway_wechsler.full_name
    rw [if_neg hv, if_pos he]
  cases ht : digits.dropWhile (fun c => c == '0') with
  | nil =>
    right; right; left
    unfold conway_wechsler.full_name
    rw [if_neg hv, if_neg he, ht]
  | cons c0 trest =>
    right; right; right
    have htdig : is_all_digits (c0 :: trest) = true := ht ▸ dropWhile_digits hv2
    have hthead : ∀ c, (c0 :: trest).head? = some c → ¬c = '0' := by
      intro c hc
      have hp := dropWhile_head_false (fun c => c == '0') digits c (by rw [ht]; exact hc)
      simpa using hp
    have hdigs : ∀ c ∈ c0 :: trest, isDigitChar c = true := by
      simpa [is_all_digits, List.all_eq_true] using htdig
    have hred : conway_wechsler.full_name digits scale =
        (match
          (if 0 < (c0 :: trest).length % 3 then
            match num_from_slice (c0 :: trest) 0 ((c0 :: trest).length % 3) with
            | none => Except.error ParseError.InternalError
            | some num =>
              match myriad_number num with
              | none => Except.error ParseError.InternalError
              | some leading =>
                match conway_wechsler.zillion_number ((c0 :: trest).length / 3) scale with
                | .error e => .error e
                | .ok zillion =>
                  Except.ok (leading ++ (if zillion ≠ "" then " " ++ zillion else ""))
          else Except.ok "" : Except ParseError String) with
         | .error e => .error e
         | .ok output =>
           conway_wechsler.cwLoop scale ((c0 :: trest).drop ((c0 :: trest).length % 3)) output) := by
      unfold conway_wechsler.full_name
      rw [if_neg hv, if_neg he, ht]
    by_cases hf : (c0 :: trest).length % 3 = 0
    · rw [hred, hf]
      simp only [Nat.lt_irrefl, if_false, List.drop_zero]
      obtain ⟨s, hs, hcon⟩ := cwLoop_spec scale (c0 :: trest) "" htdig hf
        (.inr ⟨rfl, hthead⟩)
      refine ⟨s, hs, ?_⟩
      rcases hcon with h | ⟨_, hnil⟩
      · exact h
      · cases hnil
    · -- a short leading group is present
      have hfpos : 0 < (c0 :: trest).length % 3 := by omega
      have hf3 : (c0 :: trest).length % 3 ≤ 3 := by omega
      have hflen : (c0 :: trest).length % 3 ≤ (c0 :: trest).length := Nat.mod_le _ _
      obtain ⟨hslice, hlt⟩ := num_from_slice_chunk (c0 :: trest) ((c0 :: trest).length % 3)
        hfpos (by omega) hflen hdigs
      obtain ⟨fpred, hfpred⟩ := Nat.exists_eq_succ_of_ne_zero hf
      have htakec : (c0 :: trest).take ((c0 :: trest).length % 3) =
          c0 :: trest.take fpred := by
        rw [hfpred, List.take_succ_cons]
      have hnum0 : parseDigits ((c0 :: trest).take ((c0 :: trest).length % 3)) ≠ 0 := by
        rw [htakec]
        have hpos := parseDigits_pos (l := trest.take fpred) (c := c0)
          (hdigs c0 (List.mem_cons_self _ _)) (hthead c0 rfl)
        omega
      obtain ⟨leading, hlead, _, hleadn⟩ :=
        myriad_spec (parseDigits ((c0 :: trest).take ((c0 :: trest).length % 3))) hlt
      obtain ⟨hlne, hlws⟩ := hleadn hnum0
      obtain ⟨zil, hzil, hzil0, hziln⟩ := cw_zillion_spec ((c0 :: trest).length / 3) scale
      have hdigdrop : is_all_digits ((c0 :: trest).drop ((c0 :: trest).length % 3)) = true :=
        is_all_digits_sub (List.drop_subset _ _) htdig
      have hmoddrop : ((c0 :: trest).drop ((c0 :: trest).length % 3)).length % 3 = 0 := by
        rw [List.length_drop]
        omega
      rw [hred]
      rw [if_pos hfpos]
      simp only [hslice, hlead, hzil]
      by_cases hz : zil = ""
      · rw [if_neg (by simp [hz])]
        have hout : WS ((leading ++ "").data) := by
          have hd : (leading ++ "").data = leading.data := by simp [sdata_append]
          rw [hd]
          exact hlws
        obtain ⟨s, hs, hcon⟩ := cwLoop_spec scale _ (leading ++ "") hdigdrop hmoddrop
          (.inl hout)
        refine ⟨s, hs, ?_⟩
        rcases hcon with h | ⟨rfl, _⟩
        · exact h
        · exact hout
      · rw [if_pos hz]
        obtain ⟨_, hzws⟩ := hziln (fun hc => hz (hzil0 hc))
        have hout : WS ((leading ++ (" " ++ zil)).data) := by
          have hd : (leading ++ (" " ++ zil)).data = leading.data ++ ' ' :: zil.data := by
            simp [sdata_append]
          rw [hd]
          exact ws_space_append hlws hzws
        obtain ⟨s, hs, hcon⟩ := cwLoop_spec scale _ (leading ++ (" " ++ zil)) hdigdrop hmoddrop
          (.inl hout)
        refine ⟨s, hs, ?_⟩
        rcases hcon with h | ⟨rfl, _⟩
        · exact h
        · exact hout

/-- Full case analysis of knuth_yllion::full_name: invalid digits, "zero"
(which covers the empty input, since this entry point has no empty-input
check), or a well-spaced name. -/
theorem ky_full_name_cases (digits : List Char) (hb : digits.length < 2 ^ 64) :
    knuth_yllion.full_name digits = .error .InvalidDigit ∨
    knuth_yllion.full_name digits = .ok "zero" ∨
    ∃ s, knuth_yllion.full_name digits = .ok s ∧ WS s.data := by
  by_cases hv : is_all_digits digits = false
  · left
    unfold knuth_yllion.full_name
    rw [if_pos hv]
  have hv2 := all_digits_of_not_false hv
  cases ht : digits.dropWhile (fun c => c == '0') with
  | nil =>
    right; left
    unfold knuth_yllion.full_name
    rw [if_neg hv, ht]
  | cons c0 trest =>
    right; right
    have htdig : is_all_digits (c0 :: trest) = true := ht ▸ dropWhile_digits hv2
    have hthead : ∀ c, (c0 :: trest).head? = some c → ¬c = '0' := by
      intro c hc
      have hp := dropWhile_head_false (fun c => c == '0') digits c (by rw [ht]; exact hc)
      simpa using hp
    have hdigs : ∀ c ∈ c0 :: trest, isDigitChar c = true := by
      simpa [is_all_digits, List.all_eq_true] using htdig
    have htb : (c0 :: trest).length < 2 ^ 64 := by
      have hle : (c0 :: trest).length ≤ digits.length := by
        rw [← ht]
        exact (List.dropWhile_sublist _).length_le
      omega
    have hred : knuth_yllion.full_name digits =
        (match
          (if 0 < (c0 :: trest).length % 4 then
            match num_from_slice (c0 :: trest) 0 ((c0 :: trest).length % 4) with
            | none => Except.error ParseError.InternalError
            | some num =>
              match myriad_number num with
              | none => Except.error ParseError.InternalError
              | some leading =>
                match knuth_yllion.zyllion_number ((c0 :: trest).length / 4) with
                | .error e => .error e
                | .ok (zyllion, largest) =>
                  if zyllion ≠ "" then Except.ok (leading ++ " " ++ zyllion, largest)
                  else Except.ok (leading, 0)
          else Except.ok ("", 0) : Except ParseError (String × Nat)) with
         | .error e => .error e
         | .ok (output, last_largest) =>
           knuth_yllion.kyLoop ((c0 :: trest).drop ((c0 :: trest).length % 4)) output
             last_largest) := by
      unfold knuth_yllion.full_name
      rw [if_neg hv, ht]
    by_cases hf : (c0 :: trest).length % 4 = 0
    · rw [hred, hf]
      simp only [Nat.lt_irrefl, if_false, List.drop_zero]
      obtain ⟨s, hs, hcon⟩ := kyLoop_spec (c0 :: trest) "" 0 htdig hf htb
        (.inr ⟨rfl, hthead⟩)
      refine ⟨s, hs, ?_⟩
      rcases hcon with h | ⟨_, hnil⟩
      · exact h
      · cases hnil
    · have hfpos : 0 < (c0 :: trest).length % 4 := by omega
      have hflen : (c0 :: trest).length % 4 ≤ (c0 :: trest).length := Nat.mod_le _ _
      obtain ⟨hslice, hlt⟩ := num_from_slice_chunk (c0 :: trest) ((c0 :: trest).length % 4)
        hfpos (by omega) hflen hdigs
      obtain ⟨fpred, hfpred⟩ := Nat.exists_eq_succ_of_ne_zero hf
      have htakec : (c0 :: trest).take ((c0 :: trest).length % 4) =
          c0 :: trest.take fpred := by
        rw [hfpred, List.take_succ_cons]
      have hnum0 : parseDigits ((c0 :: trest).take ((c0 :: trest).length % 4)) ≠ 0 := by
        rw [htakec]
        have hpos := parseDigits_pos (l := trest.take fpred) (c := c0)
          (hdigs c0 (List.mem_cons_self _ _)) (hthead c0 rfl)
        omega
      obtain ⟨leading, hlead, _, hleadn⟩ :=
        myriad_spec (parseDigits ((c0 :: trest).take ((c0 :: trest).length % 4))) hlt
      obtain ⟨hlne, hlws⟩ := hleadn hnum0
      obtain ⟨zil, lg, hzyl, hzyl0, hzyln⟩ :=
        ky_zyllion_spec ((c0 :: trest).length / 4) (by omega)
      have hdigdrop : is_all_digits ((c0 :: trest).drop ((c0 :: trest).length % 4)) = true :=
        is_all_digits_sub (List.drop_subset _ _) htdig
      have hmoddrop : ((c0 :: trest).drop ((c0 :: trest).length % 4)).length % 4 = 0 := by
        rw [List.length_drop]
        omega
      have hbdrop : ((c0 :: trest).drop ((c0 :: trest).length % 4)).length < 2 ^ 64 := by
        rw [List.length_drop]
        omega
      rw [hred, if_pos hfpos]
      simp only [hslice, hlead, hzyl]
      by_cases hz : zil = ""
      · rw [if_neg (by simp [hz])]
        obtain ⟨s, hs, hcon⟩ := kyLoop_spec _ leading 0 hdigdrop hmoddrop hbdrop (.inl hlws)
        refine ⟨s, hs, ?_⟩
        rcases hcon with h | ⟨rfl, _⟩
        · exact h
        · exact hlws
      · rw [if_pos hz]
        obtain ⟨_, hzws, _⟩ := hzyln (fun hc => hz (hzyl0 hc).1)
        have hout : WS ((leading ++ " " ++ zil).data) := ws_append_word hlws hzws
        obtain ⟨s, hs, hcon⟩ := kyLoop_spec _ (leading ++ " " ++ zil) lg hdigdrop hmoddrop
          hbdrop (.inl hout)
        refine ⟨s, hs, ?_⟩
        rcases hcon with h | ⟨rfl, _⟩
        · exact h
        · exact hout

/-- Full case analysis of conway_wechsler::power_of_ten. -/
theorem cw_pot_cases (digits : List Char) (scale : Scale) :
    conway_wechsler.power_of_ten digits scale = .error .InvalidDigit ∨
    conway_wechsler.power_of_ten digits scale = .error .Empty ∨
    ∃ s, conway_wechsler.power_of_ten digits scale = .ok s ∧ WS s.data := by
  by_cases hv : is_all_digits digits = false
  · left
    unfold conway_wechsler.power_of_ten
    rw [if_pos hv]
  by_cases he : digits = []
  · right; left
    unfold conway_wechsler.power_of_ten
    rw [if_neg hv, if_pos he]
  right; right
  set power := parseDigits digits with hpw
  have hm3 : power % 3 = 0 ∨ power % 3 = 1 ∨ power % 3 = 2 := by omega
  obtain ⟨w, hwval, hwws⟩ : ∃ w,
      (((to_u32 (power % 3)).map fun m =>
        match m with
        | 0 => "one"
        | 1 => "ten"
        | 2 => "one hundred"
        | _ => "").getD "") = w ∧ WS w.data := by
    rcases hm3 with hm | hm | hm <;> rw [hm] <;> exact ⟨_, rfl, by decide⟩
  have hred : conway_wechsler.power_of_ten digits scale =
      (if power / 3 = 0 then Except.ok w
       else if power / 3 = 1 then Except.ok (w ++ " thousand")
       else
         (match scale, decide ((power / 3 - 1) % 2 = 0) with
          | .Short, _ => conway_wechsler.cwPotLoop (power / 3 - 1) (power / 3 - 1)
              ((w ++ " ") ++ "") "" "on"
          | .LongBritish, true => conway_wechsler.cwPotLoop ((power / 3 - 1 + 3) / 2 - 1)
              ((power / 3 - 1 + 3) / 2 - 1) ((w ++ " ") ++ "thousand ") "" "on"
          | .LongPeletier, true => conway_wechsler.cwPotLoop ((power / 3 - 1 + 3) / 2 - 1)
              ((power / 3 - 1 + 3) / 2 - 1) ((w ++ " ") ++ "") "" "ard"
          | _, false => (match scale with
              | .Short => conway_wechsler.cwPotLoop (power / 3 - 1) (power / 3 - 1)
                  ((w ++ " ") ++ "") "" "on"
              | _ => conway_wechsler.cwPotLoop ((power / 3 - 1 + 3) / 2 - 1)
                  ((power / 3 - 1 + 3) / 2 - 1) ((w ++ " ") ++ "") "" "on"))) := by
    unfold conway_wechsler.power_of_ten
    rw [if_neg hv, if_neg he]
    simp only [← hpw, hwval]
    by_cases hp0 : power / 3 = 0
    · rw [if_pos hp0, if_pos hp0]
    rw [if_neg hp0, if_neg hp0]
    by_cases hp1 : power / 3 = 1
    · rw [if_pos hp1, if_pos hp1]
    rw [if_neg hp1, if_neg hp1]
    rcases scale with _ | _ | _ <;>
      rcases Nat.mod_two_eq_zero_or_one (power / 3 - 1) with hm | hm <;>
      simp only [hm] <;> rfl
  rw [hred]
  by_cases hp0 : power / 3 = 0
  · rw [if_pos hp0]
    exact ⟨w, rfl, hwws⟩
  rw [if_neg hp0]
  by_cases hp1 : power / 3 = 1
  · rw [if_pos hp1]
    refine ⟨w ++ " thousand", rfl, ?_⟩
    have hd : (w ++ " thousand").data = w.data ++ ' ' :: ("thousand" : String).data := rfl
    rw [hd]
    exact ws_space_append hwws (by decide)
  rw [if_neg hp1]
  have hpge : 1 ≤ power / 3 - 1 := by omega
  have hadj : 1 ≤ (power / 3 - 1 + 3) / 2 - 1 := by omega
  have hfin : ∀ (p : Nat) (pre sfx : String), 1 ≤ p → (pre = "" ∨ pre = "thousand ") →
      (∀ c ∈ sfx.data, c ≠ ' ') →
      ∃ s, conway_wechsler.cwPotLoop p p ((w ++ " ") ++ pre) "" sfx = .ok s ∧ WS s.data := by
    intro p pre sfx hp hpre hsfx
    obtain ⟨wd, hwd, hwdsp, hwdne⟩ := cwPotLoop_spec p p ((w ++ " ") ++ pre) "" sfx
      (Nat.le_refl p) (by simp)
    refine ⟨_, hwd, ?_⟩
    have hwdne2 : wd ≠ "" := hwdne (.inl (by omega))
    have hwdata : wd.data ≠ [] := fun hc => hwdne2 (string_data_eq_nil hc)
    have hword : WS (wd.data ++ sfx.data) := by
      apply ws_single
      · intro hc
        exact hwdata (List.append_eq_nil.1 hc).1
      · intro c hc
        rcases List.mem_append.1 hc with h | h
        · exact hwdsp c h
        · exact hsfx c h
    rcases hpre with rfl | rfl
    · have hd : (((w ++ " ") ++ "") ++ wd ++ sfx).data = w.data ++ ' ' :: (wd.data ++ sfx.data) := by
        simp [sdata_append, List.append_assoc]
      rw [hd]
      exact ws_space_append hwws hword
    · have hd : (((w ++ " ") ++ "thousand ") ++ wd ++ sfx).data =
          w.data ++ ' ' :: (("thousand" : String).data ++ ' ' :: (wd.data ++ sfx.data)) := by
        have hth : ("thousand " : String).data = ("thousand" : String).data ++ [' '] := rfl
        simp [sdata_append, hth, List.append_assoc]
      rw [hd]
      exact ws_space_append hwws (ws_space_append (by decide) hword)
  rcases scale with _ | _ | _ <;>
    rcases Nat.mod_two_eq_zero_or_one (power / 3 - 1) with hm | hm <;>
    simp only [hm]
  · exact hfin _ "" "on" hpge (.inl rfl) (by decide)
  · exact hfin _ "" "on" hpge (.inl rfl) (by decide)
  · exact hfin _ "thousand " "on" hadj (.inr rfl) (by decide)
  · exact hfin _ "" "on" hadj (.inl rfl) (by decide)
  · exact hfin _ "" "ard" hadj (.inl rfl) (by decide)
  · exact hfin _ "" "on" hadj (.inl rfl) (by decide)

/-- Full case analysis of knuth_yllion::power_of_ten.  Note the " myriad"
branch never fires: its guard compares a value reduced mod 2 with Some(2). -/
theorem ky_pot_cases (digits : List Char) :
    knuth_yllion.power_of_ten digits = .error .InvalidDigit ∨
    knuth_yllion.power_of_ten digits = .error .Empty ∨
    knuth_yllion.power_of_ten digits = .error .InputTooLarge ∨
    ∃ s, knuth_yllion.power_of_ten digits = .ok s ∧ WS s.data := by
  by_cases hv : is_all_digits digits = false
  · left
    unfold knuth_yllion.power_of_ten
    rw [if_pos hv]
  by_cases he : digits = []
  · right; left
    unfold knuth_yllion.power_of_ten
    rw [if_neg hv, if_pos he]
  set power := parseDigits digits with hpw
  have hm2 : power % 2 = 0 ∨ power % 2 = 1 := Nat.mod_two_eq_zero_or_one power
  obtain ⟨w, hwval, hwws⟩ : ∃ w,
      (((to_u32 (power % 2)).map fun m =>
        match m with
        | 0 => "one"
        | 1 => "ten"
        | _ => "").getD "") = w ∧ WS w.data := by
    rcases hm2 with hm | hm <;> rw [hm] <;> exact ⟨_, rfl, by decide⟩
  have hmyr : ¬(to_u32 (power / 2 / 2 % 2) = some 2) := by
    intro hc
    unfold to_u32 at hc
    rw [if_pos (by omega)] at hc
    simp at hc
    omega
  have hred : knuth_yllion.power_of_ten digits =
      knuth_yllion.kyPotLoop (power / 2 / 2 + 1) (power / 2 / 2) 1
        (if to_u32 (power / 2 % 2) = some 1 then w ++ " hundred" else w) := by
    unfold knuth_yllion.power_of_ten
    rw [if_neg hv, if_neg he]
    simp only [← hpw, hwval]
    rw [if_neg hmyr]
  have houtws : WS (if to_u32 (power / 2 % 2) = some 1 then w ++ " hundred" else w).data := by
    by_cases hh : to_u32 (power / 2 % 2) = some 1
    · rw [if_pos hh]
      have hd : (w ++ " hundred").data = w.data ++ ' ' :: ("hundred" : String).data := rfl
      rw [hd]
      exact ws_space_append hwws (by decide)
    · rw [if_neg hh]
      exact hwws
  rw [hred]
  rcases kyPotLoop_spec (power / 2 / 2 + 1) (power / 2 / 2) 1 _ (by omega) houtws with h | h
  · right; right; right
    exact h
  · right; right; left
    exact h

/-! Claim theorems. -/

/-- C1: the claim (like the crate's own unit test) expects
knuth_yllion.full_name("4200") to be "forty two hundred"; the code instead
produces "fourty two hundred", because the TENS_NAMES table misspells the
entry for forty as "fourty".  This theorem evaluates the code at the
failing input and records the divergence. -/
theorem claim_C1 :
    knuth_yllion.full_name "4200".data = .ok "fourty two hundred" ∧
    knuth_yllion.full_name "4200".data ≠ .ok "forty two hundred" :=
  ⟨rfl, by decide⟩

/-- C2 counterexample: knuth_yllion.full_name has no empty-input check, so
the empty string is treated as all zeroes and named "zero" instead of
failing with Empty, refuting the claim as stated. -/
theorem claim_C2_counterexample :
    knuth_yllion.full_name [] = .ok "zero" ∧
    knuth_yllion.full_name [] ≠ .error .Empty :=
  ⟨rfl, by decide⟩

/-- C2 (amended): any input with a non-digit character fails with
InvalidDigit on all four public operations; the empty string fails with
Empty on conway_wechsler.full_name, conway_wechsler.power_of_ten and
knuth_yllion.power_of_ten, while knuth_yllion.full_name returns Ok "zero"
on it. -/
theorem claim_C2 :
    ∀ (digits : List Char) (scale : Scale),
      ((∃ c ∈ digits, isDigitChar c = false) →
        conway_wechsler.full_name digits scale = .error .InvalidDigit ∧
        conway_wechsler.power_of_ten digits scale = .error .InvalidDigit ∧
        knuth_yllion.full_name digits = .error .InvalidDigit ∧
        knuth_yllion.power_of_ten digits = .error .InvalidDigit) ∧
      (digits = [] →
        conway_wechsler.full_name digits scale = .error .Empty ∧
        conway_wechsler.power_of_ten digits scale = .error .Empty ∧
        knuth_yllion.power_of_ten digits = .error .Empty ∧
        knuth_yllion.full_name digits = .ok "zero") := by
  intro digits scale
  constructor
  · rintro ⟨c, hc, hcd⟩
    have hv : is_all_digits digits = false := by
      cases hval : is_all_digits digits
      · rfl
      · exfalso
        simp only [is_all_digits, List.all_eq_true] at hval
        rw [hval c hc] at hcd
        cases hcd
    refine ⟨?_, ?_, ?_, ?_⟩
    · unfold conway_wechsler.full_name
      rw [if_pos hv]
    · unfold conway_wechsler.power_of_ten
      rw [if_pos hv]
    · unfold knuth_yllion.full_name
      rw [if_pos hv]
    · unfold knuth_yllion.power_of_ten
      rw [if_pos hv]
  · rintro rfl
    exact ⟨rfl, rfl, rfl, rfl⟩

/-- C2 witness: concrete instances of the amended claim. -/
theorem claim_C2_witness :
    conway_wechsler.full_name "1a".data .Short = .error .InvalidDigit ∧
    knuth_yllion.full_name [] = .ok "zero" :=
  ⟨((claim_C2 "1a".data .Short).1 (by decide)).1,
   ((claim_C2 [] .Short).2 rfl).2.2.2⟩

/-- C3: the claim (and the function's own documentation, which makes
power_of_ten equivalent to full_name of one followed by that many zeroes)
expects 10^4 to be named "one myriad"; the code returns "one", because the
bit-2 test compares a remainder mod 2 against Some(2), which never holds.
This theorem evaluates the code at the failing input and shows the
full_name side of the documented equivalence for contrast. -/
theorem claim_C3 :
    knuth_yllion.power_of_ten "4".data = .ok "one" ∧
    knuth_yllion.power_of_ten "4".data ≠ .ok "one myriad" ∧
    knuth_yllion.full_name "10000".data = .ok "one myriad" :=
  ⟨rfl, by decide, rfl⟩

/-- C4: for every exponent below 100 and every scale, the exponent
arithmetic of conway_wechsler.power_of_ten names ten to that power exactly
as conway_wechsler.full_name names the digit string one-followed-by-zeroes. -/
theorem claim_C4 :
    ∀ n : Nat, n < 100 → ∀ scale : Scale,
      conway_wechsler.power_of_ten (Nat.toDigits 10 n) scale =
        conway_wechsler.full_name ('1' :: List.replicate n '0') scale := by decide

/-- C4 witness: the two paths agree at exponent nine on the short scale. -/
theorem claim_C4_witness :
    conway_wechsler.power_of_ten (Nat.toDigits 10 9) .Short =
      conway_wechsler.full_name ('1' :: List.replicate 9 '0') .Short :=
  claim_C4 9 (by decide) .Short

/-- C5: in the most-significant-first scan of knuth_yllion.full_name, a
four-digit group of zeroes appends its computed zyllion qualifier alone
(with no count words) exactly when the qualifier's rank strictly exceeds
the largest rank emitted so far, updating the tracked rank; otherwise the
zero group contributes nothing. -/
theorem claim_C5 :
    ∀ (rest : List Char) (output : String) (last : Nat) (z : String) (lg : Nat),
      knuth_yllion.zyllion_number ((rest.length + 3) / 4) = .ok (z, lg) →
      knuth_yllion.kyLoop ('0' :: '0' :: '0' :: '0' :: rest) output last =
        (if last < lg then knuth_yllion.kyLoop rest (output ++ " " ++ z) lg
         else knuth_yllion.kyLoop rest output last) := by
  intro rest output last z lg hz
  have hslice : num_from_slice ('0' :: '0' :: '0' :: '0' :: rest) 0 4 = some 0 := by
    unfold num_from_slice
    rw [if_pos (show 0 + 4 ≤ ('0' :: '0' :: '0' :: '0' :: rest).length by simp)]
    have hval : (if 0 < 4 ∧ (['0', '0', '0', '0'].all isDigitChar) = true ∧
           parseDigits ['0', '0', '0', '0'] < 2 ^ 64
         then some (parseDigits ['0', '0', '0', '0']) else none) = some 0 := by decide
    exact hval
  have hred : knuth_yllion.kyLoop ('0' :: '0' :: '0' :: '0' :: rest) output last =
      (match knuth_yllion.zyllion_number ((rest.length + 3) / 4) with
       | .error e => .error e
       | .ok (zyllion, largest) =>
         knuth_yllion.kyLoop rest (knuth_yllion.kyStep output last "" zyllion largest).1
           (knuth_yllion.kyStep output last "" zyllion largest).2) := by
    have h0 : knuth_yllion.kyLoop ('0' :: '0' :: '0' :: '0' :: rest) output last =
        (match num_from_slice ('0' :: '0' :: '0' :: '0' :: rest) 0 4 with
         | none => Except.error ParseError.InternalError
         | some num =>
           match myriad_number num with
           | none => Except.error ParseError.InternalError
           | some leading =>
             match knuth_yllion.zyllion_number ((rest.length + 3) / 4) with
             | .error e => .error e
             | .ok (zyllion, largest) =>
               knuth_yllion.kyLoop rest
                 (knuth_yllion.kyStep output last leading zyllion largest).1
                 (knuth_yllion.kyStep output last leading zyllion largest).2) := rfl
    rw [h0]
    simp only [hslice, show myriad_number 0 = some "" from rfl]
  rw [hred]
  simp only [hz]
  rw [kyStep_lead_empty]
  by_cases hcmp : last < lg
  · rw [if_pos hcmp, if_pos hcmp]
  · rw [if_neg hcmp, if_neg hcmp]

/-- C5 witness: eight zero digits after an already-written output emit one
"myriad" qualifier alone. -/
theorem claim_C5_witness :
    knuth_yllion.kyLoop ('0' :: '0' :: '0' :: '0' :: '0' :: '0' :: '0' :: '0' :: []) "x" 0 =
      .ok "x myriad" := by
  rw [claim_C5 ('0' :: '0' :: '0' :: '0' :: []) "x" 0 "myriad" 1 rfl]
  rfl

/-- C6: one followed by nine zeroes is named one billion on the short
scale, one milliard on the Peletier long scale, and one thousand million
on the British long scale. -/
theorem claim_C6 :
    conway_wechsler.full_name "1000000000".data .Short = .ok "one billion" ∧
    conway_wechsler.full_name "1000000000".data .LongPeletier = .ok "one milliard" ∧
    conway_wechsler.full_name "1000000000".data .LongBritish = .ok "one thousand million" :=
  ⟨rfl, rfl, rfl⟩

/-- C7: for every input whose length fits the machine's usize range, none
of the four public operations ever returns InternalError.  In this
embedding the InternalError value also stands for every panic point of the
source (the unwraps of num_from_slice and the try operators applied to
None), so this also states that those are unreachable. -/
theorem claim_C7 :
    ∀ (digits : List Char) (scale : Scale), digits.length < 2 ^ 64 →
      conway_wechsler.full_name digits scale ≠ .error .InternalError ∧
      conway_wechsler.power_of_ten digits scale ≠ .error .InternalError ∧
      knuth_yllion.full_name digits ≠ .error .InternalError ∧
      knuth_yllion.power_of_ten digits ≠ .error .InternalError := by
  intro digits scale hb
  refine ⟨?_, ?_, ?_, ?_⟩
  · rcases cw_full_name_cases digits scale with h | h | h | ⟨s, h, _⟩ <;> rw [h] <;> simp
  · rcases cw_pot_cases digits scale with h | h | ⟨s, h, _⟩ <;> rw [h] <;> simp
  · rcases ky_full_name_cases digits hb with h | h | ⟨s, h, _⟩ <;> rw [h] <;> simp
  · rcases ky_pot_cases digits with h | h | h | ⟨s, h, _⟩ <;> rw [h] <;> simp

/-- C7 witness: a concrete instance. -/
theorem claim_C7_witness :
    ("42".data.length < 2 ^ 64) ∧
    (conway_wechsler.full_name "42".data .Short ≠ .error .InternalError ∧
     conway_wechsler.power_of_ten "42".data .Short ≠ .error .InternalError ∧
     knuth_yllion.full_name "42".data ≠ .error .InternalError ∧
     knuth_yllion.power_of_ten "42".data ≠ .error .InternalError) :=
  ⟨by decide, claim_C7 "42".data .Short (by decide)⟩

/-- C8: every nonempty all-zero input is named "zero" by both full_name
entry points, on every scale. -/
theorem claim_C8 :
    ∀ (digits : List Char) (scale : Scale), digits ≠ [] → (∀ c ∈ digits, c = '0') →
      conway_wechsler.full_name digits scale = .ok "zero" ∧
      knuth_yllion.full_name digits = .ok "zero" := by
  intro digits scale hne hz
  have hv : is_all_digits digits = true := by
    simp only [is_all_digits, List.all_eq_true]
    intro c hc
    rw [hz c hc]
    decide
  have hdw : digits.dropWhile (fun c => c == '0') = [] := by
    rw [List.dropWhile_eq_nil_iff]
    intro c hc
    rw [hz c hc]
    rfl
  constructor
  · unfold conway_wechsler.full_name
    rw [if_neg (by rw [hv]; simp), if_neg hne, hdw]
  · unfold knuth_yllion.full_name
    rw [if_neg (by rw [hv]; simp), hdw]

/-- C8 witness: the three-zero input. -/
theorem claim_C8_witness :
    conway_wechsler.full_name "000".data .LongBritish = .ok "zero" ∧
    knuth_yllion.full_name "000".data = .ok "zero" :=
  claim_C8 "000".data .LongBritish (by decide) (by decide)

/-- C9 counterexample: with the empty digit string for d, prepending a zero
changes conway_wechsler.full_name from Err(Empty) to Ok "zero", refuting
the claim under its unrestricted quantifier over all-digit strings. -/
theorem claim_C9_counterexample :
    conway_wechsler.full_name ['0'] .Short = .ok "zero" ∧
    conway_wechsler.full_name [] .Short = .error .Empty ∧
    conway_wechsler.full_name ['0'] .Short ≠ conway_wechsler.full_name [] .Short :=
  ⟨rfl, rfl, by decide⟩

/-- C9 (amended): prepending a zero to a NONEMPTY all-digit input never
changes conway_wechsler.full_name, and prepending a zero to any all-digit
input (the empty one included) never changes knuth_yllion.full_name. -/
theorem claim_C9 :
    ∀ (d : List Char) (scale : Scale), is_all_digits d = true →
      (d ≠ [] →
        conway_wechsler.full_name ('0' :: d) scale = conway_wechsler.full_name d scale) ∧
      knuth_yllion.full_name ('0' :: d) = knuth_yllion.full_name d := by
  intro d scale hdig
  have hall : is_all_digits ('0' :: d) = true := by
    simp only [is_all_digits, List.all_cons, Bool.and_eq_true]
    exact ⟨rfl, by simpa [is_all_digits] using hdig⟩
  have hdw : ('0' :: d).dropWhile (fun c => c == '0') = d.dropWhile (fun c => c == '0') :=
    List.dropWhile_cons_of_pos rfl
  constructor
  · intro hne
    unfold conway_wechsler.full_name
    rw [if_neg (show ¬(is_all_digits ('0' :: d) = false) by rw [hall]; simp),
      if_neg (show ('0' :: d) ≠ [] by simp),
      if_neg (show ¬(is_all_digits d = false) by rw [hdig]; simp),
      if_neg hne, hdw]
  · unfold knuth_yllion.full_name
    rw [if_neg (show ¬(is_all_digits ('0' :: d) = false) by rw [hall]; simp),
      if_neg (show ¬(is_all_digits d = false) by rw [hdig]; simp),
      hdw]

/-- C9 witness: 012 is named like 12 in both systems. -/
theorem claim_C9_witness :
    conway_wechsler.full_name ('0' :: "12".data) .Short =
      conway_wechsler.full_name "12".data .Short ∧
    knuth_yllion.full_name ('0' :: "12".data) = knuth_yllion.full_name "12".data :=
  ⟨(claim_C9 "12".data .Short (by decide)).1 (by decide),
   (claim_C9 "12".data .Short (by decide)).2⟩

/-- C10: every Ok result of the four public operations, on inputs whose
length fits the machine's usize range, is a nonempty string with no leading
space, no trailing space, and no two consecutive spaces. -/
theorem claim_C10 :
    ∀ (digits : List Char) (scale : Scale) (s : String), digits.length < 2 ^ 64 →
      (conway_wechsler.full_name digits scale = .ok s ∨
       conway_wechsler.power_of_ten digits scale = .ok s ∨
       knuth_yllion.full_name digits = .ok s ∨
       knuth_yllion.power_of_ten digits = .ok s) →
      s.data ≠ [] ∧ s.data.head? ≠ some ' ' ∧ s.data.getLast? ≠ some ' ' ∧
        noDS s.data = true := by
  intro digits scale s hb hcase
  suffices hws : WS s.data from hws
  rcases hcase with h | h | h | h
  · rcases cw_full_name_cases digits scale with h2 | h2 | h2 | ⟨s2, h2, hw2⟩
    · have hcontra := h.symm.trans h2
      simp at hcontra
    · have hcontra := h.symm.trans h2
      simp at hcontra
    · have hs : s = "zero" := Except.ok.inj (h.symm.trans h2)
      rw [hs]
      decide
    · have hs : s = s2 := Except.ok.inj (h.symm.trans h2)
      rw [hs]
      exact hw2
  · rcases cw_pot_cases digits scale with h2 | h2 | ⟨s2, h2, hw2⟩
    · have hcontra := h.symm.trans h2
      simp at hcontra
    · have hcontra := h.symm.trans h2
      simp at hcontra
    · have hs : s = s2 := Except.ok.inj (h.symm.trans h2)
      rw [hs]
      exact hw2
  · rcases ky_full_name_cases digits hb with h2 | h2 | ⟨s2, h2, hw2⟩
    · have hcontra := h.symm.trans h2
      simp at hcontra
    · have hs : s = "zero" := Except.ok.inj (h.symm.trans h2)
      rw [hs]
      decide
    · have hs : s = s2 := Except.ok.inj (h.symm.trans h2)
      rw [hs]
      exact hw2
  · rcases ky_pot_cases digits with h2 | h2 | h2 | ⟨s2, h2, hw2⟩
    · have hcontra := h.symm.trans h2
      simp at hcontra
    · have hcontra := h.symm.trans h2
      simp at hcontra
    · have hcontra := h.symm.trans h2
      simp at hcontra
    · have hs : s = s2 := Except.ok.inj (h.symm.trans h2)
      rw [hs]
      exact hw2

/-- C10 witness: the name of 12 is a single well-spaced word. -/
theorem claim_C10_witness :
    ("12".data.length < 2 ^ 64) ∧
    ("twelve".data ≠ [] ∧ "twelve".data.head? ≠ some ' ' ∧
      "twelve".data.getLast? ≠ some ' ' ∧ noDS "twelve".data = true) :=
  ⟨by decide, claim_C10 "12".data .Short "twelve" (by decide) (.inl rfl)⟩

end Googology
